import Mathlib

/- Verification of the leaderboard JSON-extraction service (main.py).

   Text is modelled as a list of characters.  Every Python function of the
   service is translated into an executable Lean definition; stateful loops
   become explicit state-passing recursion, fallible operations return
   Option or Except values. -/

set_option maxHeartbeats 1600000

abbrev Str := List Char

def lit (s : String) : Str := s.data

/- State of the brace scanner in _brace_cut: nesting depth, the in-string
   flag and the escape flag.  Depth is an integer, as in the source (it
   could in principle go negative if the scan did not start at a brace). -/
abbrev ScanSt := Int × Bool × Bool

/- One character step of the scanner in _brace_cut.  The order of the
   tests follows the source: an active escape consumes the character, a
   backslash arms the escape, a quote toggles the in-string flag, and
   braces adjust the depth only outside of strings. -/
def scanStep : ScanSt → Char → ScanSt
  | (depth, inStr, esc), c =>
    if esc then (depth, inStr, false)
    else if c = '\\' then (depth, inStr, true)
    else
      let inStr2 := if c = '"' then !inStr else inStr
      if inStr2 then (depth, inStr2, false)
      else if c = '{' then (depth + 1, inStr2, false)
      else if c = '}' then (depth - 1, inStr2, false)
      else (depth, inStr2, false)

/- The condition under which _brace_cut returns at the current character:
   no active escape, not inside a string, a closing brace, and the
   decrement takes the depth from 1 to 0. -/
def retHere : ScanSt → Char → Bool
  | (depth, inStr, esc), c => !esc && !inStr && (c = '}') && (depth = 1)

/- The scanning loop of _brace_cut.  The accumulator holds the characters
   consumed so far (the slice text[start_idx:i]); reaching the end of the
   text without returning models the raised ValueError. -/
def cutLoop : List Char → ScanSt → List Char → Option (List Char)
  | [], _, _ => none
  | c :: rest, st, acc =>
    if retHere st c then some (acc ++ [c])
    else cutLoop rest (scanStep st c) (acc ++ [c])

/- Translation of _brace_cut(text, start_idx): scan forward from
   start_idx; some s is the returned slice, none is the UnbalancedBraces
   ValueError. -/
def brace_cut (text : Str) (start : Nat) : Option Str :=
  cutLoop (text.drop start) (0, false, false) []

/- Folding the scanner state over a string, for stating invariants. -/
def scanList (st : ScanSt) (l : List Char) : ScanSt := l.foldl scanStep st

/- A character is a structural opening brace when the scanner would count
   it: no active escape, outside any string literal. -/
def isStructOpen : ScanSt → Char → Bool
  | (_, inStr, esc), c => !esc && !inStr && (c = '{')

def isStructClose : ScanSt → Char → Bool
  | (_, inStr, esc), c => !esc && !inStr && (c = '}')

/- Counts of structural opening and closing braces along a scan. -/
def structCounts : ScanSt → List Char → Nat × Nat
  | _, [] => (0, 0)
  | st, c :: rest =>
    let r := structCounts (scanStep st c) rest
    if isStructOpen st c then (r.1 + 1, r.2)
    else if isStructClose st c then (r.1, r.2 + 1)
    else r

def structOpens (s : Str) : Nat := (structCounts (0, false, false) s).1

def structCloses (s : Str) : Nat := (structCounts (0, false, false) s).2

/- Count of occurrences of a character that are not backslash-escaped,
   using only the escape automaton (string literals are NOT honoured).
   This is the plain reading of "unescaped" in the specification. -/
def countUnescaped (target : Char) : List Char → Bool → Nat
  | [], _ => 0
  | c :: rest, esc =>
    if esc then countUnescaped target rest false
    else if c = '\\' then countUnescaped target rest true
    else (if c = target then 1 else 0) + countUnescaped target rest false

theorem scanStep_depth (st : ScanSt) (c : Char) :
    (scanStep st c).1 = st.1 + (if isStructOpen st c = true then 1 else 0)
      - (if isStructClose st c = true then 1 else 0) := by
  obtain ⟨d, i, e⟩ := st
  simp only [scanStep, isStructOpen, isStructClose]
  by_cases he : e <;> by_cases hq : c = '"' <;> by_cases hb : c = '\\' <;>
    by_cases hi : i <;> by_cases ho : c = '{' <;> by_cases hc : c = '}' <;>
    simp_all <;> omega

theorem not_structOpen_and_close (st : ScanSt) (c : Char) :
    ¬(isStructOpen st c = true ∧ isStructClose st c = true) := by
  obtain ⟨d, i, e⟩ := st
  simp only [isStructOpen, isStructClose, Bool.and_eq_true, Bool.not_eq_true',
    decide_eq_true_eq]
  rintro ⟨⟨-, h1⟩, ⟨-, h2⟩⟩
  rw [h1] at h2
  exact absurd h2 (by decide)

theorem scanList_depth (l : List Char) : ∀ st : ScanSt,
    (scanList st l).1 = st.1 + ((structCounts st l).1 : Int)
      - ((structCounts st l).2 : Int) := by
  induction l with
  | nil => intro st; simp [scanList, structCounts]
  | cons c rest ih =>
    intro st
    have h1 := scanStep_depth st c
    have h2 := ih (scanStep st c)
    simp only [scanList, List.foldl_cons] at h2 ⊢
    simp only [structCounts]
    cases ho : isStructOpen st c with
    | true =>
      cases hc : isStructClose st c with
      | true => exact absurd ⟨ho, hc⟩ (not_structOpen_and_close st c)
      | false =>
        rw [ho, hc] at h1
        simp only [ho, hc, if_true, Bool.false_eq_true, if_false] at h1 ⊢
        push_cast
        omega
    | false =>
      cases hc : isStructClose st c with
      | true =>
        rw [ho, hc] at h1
        simp only [ho, hc, if_true, Bool.false_eq_true, if_false] at h1 ⊢
        push_cast
        omega
      | false =>
        rw [ho, hc] at h1
        simp only [ho, hc, Bool.false_eq_true, if_false] at h1 ⊢
        push_cast
        omega

theorem scanStep_pos (st : ScanSt) (c : Char) (hret : retHere st c = false)
    (h : 1 ≤ st.1) : 1 ≤ (scanStep st c).1 := by
  obtain ⟨d, i, e⟩ := st
  simp only [retHere] at hret
  simp only [scanStep]
  by_cases he : e <;> by_cases hq : c = '"' <;> by_cases hb : c = '\\' <;>
    by_cases hi : i <;> by_cases ho : c = '{' <;> by_cases hc : c = '}' <;>
    simp_all <;> omega

theorem cutLoop_none (l : List Char) : ∀ st acc, cutLoop l st acc = none →
    1 ≤ st.1 → 1 ≤ (scanList st l).1 := by
  induction l with
  | nil =>
    intro st acc _ h1
    simpa [scanList] using h1
  | cons c rest ih =>
    intro st acc h h1
    simp only [cutLoop] at h
    by_cases hr : retHere st c = true
    · simp [hr] at h
    · rw [if_neg hr] at h
      have hpos := scanStep_pos st c (by simpa using hr) h1
      simpa [scanList] using ih (scanStep st c) (acc ++ [c]) h hpos

theorem cutLoop_some (l : List Char) : ∀ st acc s, cutLoop l st acc = some s →
    ∃ p q, l = p ++ q ∧ s = acc ++ p ∧ p ≠ [] ∧ p.getLast? = some '}' ∧
      scanList st p = (0, false, false) ∧
      (1 ≤ st.1 → ∀ n, n ≠ 0 → n < p.length → 1 ≤ (scanList st (p.take n)).1) := by
  induction l with
  | nil => intro st acc s h; simp [cutLoop] at h
  | cons c rest ih =>
    intro st acc s h
    simp only [cutLoop] at h
    by_cases hr : retHere st c = true
    · rw [if_pos hr] at h
      obtain rfl : acc ++ [c] = s := Option.some.inj h
      obtain ⟨d, i, e⟩ := st
      simp only [retHere, Bool.and_eq_true, Bool.not_eq_true',
        decide_eq_true_eq] at hr
      obtain ⟨⟨⟨he, hi⟩, hc⟩, hd⟩ := hr
      subst he hi hc hd
      refine ⟨['}'], rest, rfl, rfl, by simp, by simp, by decide, ?_⟩
      intro _ n hn0 hn1
      simp only [List.length_singleton] at hn1
      omega
    · rw [if_neg hr] at h
      obtain ⟨p, q, hl, hs, hp, hlast, hscan, hmid⟩ :=
        ih (scanStep st c) (acc ++ [c]) s h
      refine ⟨c :: p, q, by simp [hl], by simp [hs], by simp, ?_, ?_, ?_⟩
      · cases p with
        | nil => exact absurd rfl hp
        | cons x xs => simpa using hlast
      · simpa [scanList] using hscan
      · intro hst n hn0 hn1
        have hpos := scanStep_pos st c (by simpa using hr) hst
        cases n with
        | zero => exact absurd rfl hn0
        | succ m =>
          simp only [List.take_succ_cons]
          cases Nat.eq_zero_or_pos m with
          | inl hm =>
            subst hm
            simpa [scanList] using hpos
          | inr hm =>
            have := hmid hpos m (Nat.pos_iff_ne_zero.mp hm)
              (by simp at hn1; omega)
            simpa [scanList] using this

/-- Claim C1 is corrected.  Counterexample to the claim as stated: on the
block text followed by nothing else, with the scan starting at its opening
brace, _brace_cut returns the whole block, but the returned substring has
one unescaped opening brace and two unescaped closing braces (the closing
brace inside the string literal is not backslash-escaped), so the counts of
unescaped braces differ. -/
theorem C1_brace_cut_counterexample :
    brace_cut (lit ("\x7b\"a\":\"\x7d\"\x7d")) 0 = some (lit ("\x7b\"a\":\"\x7d\"\x7d")) ∧
    countUnescaped '{' (lit ("\x7b\"a\":\"\x7d\"\x7d")) false ≠
      countUnescaped '}' (lit ("\x7b\"a\":\"\x7d\"\x7d")) false := by
  exact ⟨by decide, by decide⟩

/-- Claim C1 (amended): for every text and start index pointing at an
opening brace, _brace_cut either returns the inclusive substring from the
start index to the first brace that returns the scanner depth to 0 — and
that substring has equal counts of STRUCTURAL braces, i.e. braces that are
neither backslash-escaped nor inside a string literal — or fails
(UnbalancedBraces) exactly when the end of the text is reached with the
depth still nonzero. -/
theorem C1_brace_cut_amended (text : Str) (start : Nat)
    (hstart : text.get? start = some '{') :
    (∀ s, brace_cut text start = some s →
      (∃ q, text.drop start = s ++ q) ∧ s ≠ [] ∧ s.getLast? = some '}' ∧
      structOpens s = structCloses s ∧
      (scanList (0, false, false) s).1 = 0 ∧
      (∀ n, n ≠ 0 → n < s.length → (scanList (0, false, false) (s.take n)).1 ≠ 0)) ∧
    (brace_cut text start = none →
      (scanList (0, false, false) (text.drop start)).1 ≠ 0) := by
  have hlt : start < text.length := by
    rcases List.get?_eq_some.mp hstart with ⟨h, -⟩
    exact h
  have hd : text.drop start = '{' :: text.drop (start + 1) := by
    have := List.drop_eq_getElem_cons (l := text) (n := start) hlt
    rw [this]
    have hg : text[start] = '{' := by
      rcases List.get?_eq_some.mp hstart with ⟨h, hv⟩
      simpa [List.get_eq_getElem] using hv
    rw [hg]
  have hret0 : retHere (0, false, false) '{' = false := by decide
  have hstep0 : scanStep (0, false, false) '{' = (1, false, false) := by decide
  have hb : brace_cut text start
      = cutLoop (text.drop (start + 1)) (1, false, false) ['{'] := by
    rw [brace_cut, hd]
    simp only [cutLoop, hret0, Bool.false_eq_true, if_false, hstep0,
      List.nil_append]
  constructor
  · intro s hs
    rw [hb] at hs
    obtain ⟨p, q, hl, hsp, hp, hlast, hscan, hmid⟩ :=
      cutLoop_some (text.drop (start + 1)) (1, false, false) ['{'] s hs
    have hsp2 : s = '{' :: p := by simpa using hsp
    have hscons : scanList (0, false, false) ('{' :: p)
        = scanList (1, false, false) p := by
      simp [scanList, hstep0]
    refine ⟨⟨q, ?_⟩, by simp [hsp2], ?_, ?_, ?_, ?_⟩
    · rw [hd, hl, hsp2]
      simp
    · rw [hsp2]
      cases p with
      | nil => exact absurd rfl hp
      | cons x xs => simpa using hlast
    · have hdep : (scanList (0, false, false) s).1 = 0 := by
        rw [hsp2, hscons, hscan]
      have hcount := scanList_depth s (0, false, false)
      rw [hdep] at hcount
      simp only [structOpens, structCloses]
      omega
    · rw [hsp2, hscons, hscan]
    · intro n hn0 hn1
      rw [hsp2] at hn1 ⊢
      simp only [List.length_cons] at hn1
      cases n with
      | zero => exact absurd rfl hn0
      | succ m =>
        simp only [List.take_succ_cons]
        have hone : scanList (0, false, false) ('{' :: p.take m)
            = scanList (1, false, false) (p.take m) := by
          simp [scanList, hstep0]
        rw [hone]
        cases Nat.eq_zero_or_pos m with
        | inl hm =>
          subst hm
          simp [scanList]
        | inr hm =>
          have := hmid (by norm_num) m (Nat.pos_iff_ne_zero.mp hm) (by omega)
          omega
  · intro hnone
    rw [hb] at hnone
    have := cutLoop_none (text.drop (start + 1)) (1, false, false) ['{']
      hnone (by norm_num)
    rw [hd]
    have hscons : scanList (0, false, false) ('{' :: text.drop (start + 1))
        = scanList (1, false, false) (text.drop (start + 1)) := by
      simp [scanList, hstep0]
    rw [hscons]
    omega

/-- Witness for the amended claim C1, instantiated on a concrete block:
the returned substring ends in a closing brace and has equal counts of
structural braces. -/
theorem C1_brace_cut_amended_witness :
    (lit ("\x7b\"a\":\"\x7d\"\x7d")).getLast? = some '}' ∧
    structOpens (lit ("\x7b\"a\":\"\x7d\"\x7d")) =
      structCloses (lit ("\x7b\"a\":\"\x7d\"\x7d")) := by
  have h := (C1_brace_cut_amended (lit ("\x7b\"a\":\"\x7d\"\x7d")) 0 (by decide)).1
    (lit ("\x7b\"a\":\"\x7d\"\x7d")) (by decide)
  exact ⟨h.2.2.1, h.2.2.2.1⟩

/- The Unescaper of the source is
   bytes(cut, "utf-8").decode("unicode_escape").
   We model it in two stages over natural-number code points and bytes:
   a UTF-8 encoder, and the CPython unicode_escape decoder, which reads
   the byte stream as Latin-1 plus backslash escape sequences. -/

/- UTF-8 encoding of one Unicode code point. -/
def utf8Bytes (n : Nat) : List Nat :=
  if n < 0x80 then [n]
  else if n < 0x800 then [0xC0 + n / 64, 0x80 + n % 64]
  else if n < 0x10000 then
    [0xE0 + n / 4096, 0x80 + n / 64 % 64, 0x80 + n % 64]
  else
    [0xF0 + n / 262144, 0x80 + n / 4096 % 64, 0x80 + n / 64 % 64, 0x80 + n % 64]

def utf8Encode (l : List Nat) : List Nat := l.flatMap utf8Bytes

def hexVal (b : Nat) : Option Nat :=
  if 0x30 ≤ b ∧ b ≤ 0x39 then some (b - 0x30)
  else if 0x61 ≤ b ∧ b ≤ 0x66 then some (b - 0x61 + 10)
  else if 0x41 ≤ b ∧ b ≤ 0x46 then some (b - 0x41 + 10)
  else none

def octVal (b : Nat) : Option Nat :=
  if 0x30 ≤ b ∧ b ≤ 0x37 then some (b - 0x30) else none

/- CPython unicode_escape decoding of a byte list into code points.
   Bytes outside escape sequences are read as Latin-1 (NOT as UTF-8).
   Supported escapes follow the codec: a backslash-newline line
   continuation, the single-character escapes, up to three octal digits,
   \xXX, \uXXXX and \UXXXXXXXX (the last checked against the code-point
   range).  An unknown escape keeps the backslash and the character.  A
   trailing backslash or a malformed hex escape is an error (none).
   \N\x7bname\x7d escapes would need the Unicode name table; they cannot
   occur in any input considered here and are modelled as an error. -/
/- Reading exactly two, four or eight hex digits from the front of a byte
   list, returning the value and the remaining bytes. -/
def hex2? : List Nat → Option (Nat × List Nat)
  | h1 :: h2 :: t =>
    match hexVal h1, hexVal h2 with
    | some v1, some v2 => some (v1 * 16 + v2, t)
    | _, _ => none
  | _ => none

def hex4? (l : List Nat) : Option (Nat × List Nat) :=
  (hex2? l).bind (fun vr1 =>
    (hex2? vr1.2).map (fun vr2 => (vr1.1 * 256 + vr2.1, vr2.2)))

def hex8? (l : List Nat) : Option (Nat × List Nat) :=
  (hex4? l).bind (fun vr1 =>
    (hex4? vr1.2).map (fun vr2 => (vr1.1 * 65536 + vr2.1, vr2.2)))

/- After a leading octal digit d0, consume up to two further octal digits
   (the codec reads at most three in total). -/
def octRest (d0 : Nat) : List Nat → Nat × List Nat
  | [] => (d0, [])
  | o1 :: t =>
    match octVal o1 with
    | none => (d0, o1 :: t)
    | some d1 =>
      match t with
      | [] => (d0 * 8 + d1, [])
      | o2 :: t2 =>
        match octVal o2 with
        | none => (d0 * 8 + d1, o2 :: t2)
        | some d2 => (d0 * 64 + d1 * 8 + d2, t2)

/- The decoding loop, structurally recursive on a fuel argument; every
   recursive call is on a strict suffix of the byte list, so any fuel
   larger than the length of the list gives the same result (proved
   below), and the wrapper uescDecode supplies such a fuel. -/
def uescDecodeF : Nat → List Nat → Option (List Nat)
  | 0, _ => none
  | f + 1, l =>
    match l with
    | [] => some []
    | b :: t =>
      if b ≠ 92 then (uescDecodeF f t).map (b :: ·)
      else
        match t with
        | [] => none
        | e :: t2 =>
          if e = 10 then uescDecodeF f t2
          else if e = 92 then (uescDecodeF f t2).map (92 :: ·)
          else if e = 39 then (uescDecodeF f t2).map (39 :: ·)
          else if e = 34 then (uescDecodeF f t2).map (34 :: ·)
          else if e = 97 then (uescDecodeF f t2).map (7 :: ·)
          else if e = 98 then (uescDecodeF f t2).map (8 :: ·)
          else if e = 102 then (uescDecodeF f t2).map (12 :: ·)
          else if e = 110 then (uescDecodeF f t2).map (10 :: ·)
          else if e = 114 then (uescDecodeF f t2).map (13 :: ·)
          else if e = 116 then (uescDecodeF f t2).map (9 :: ·)
          else if e = 118 then (uescDecodeF f t2).map (11 :: ·)
          else if e = 120 then
            (hex2? t2).bind (fun vr => (uescDecodeF f vr.2).map (vr.1 :: ·))
          else if e = 117 then
            (hex4? t2).bind (fun vr => (uescDecodeF f vr.2).map (vr.1 :: ·))
          else if e = 85 then
            (hex8? t2).bind (fun vr =>
              if vr.1 < 0x110000 then (uescDecodeF f vr.2).map (vr.1 :: ·)
              else none)
          else if e = 78 then none
          else
            (octVal e).elim ((uescDecodeF f t2).map (fun r => 92 :: e :: r))
              (fun d0 =>
                (uescDecodeF f (octRest d0 t2).2).map ((octRest d0 t2).1 :: ·))

def uescDecode (l : List Nat) : Option (List Nat) := uescDecodeF (l.length + 1) l



def strToCp (s : Str) : List Nat := s.map Char.toNat

/- A decoded code point back to a character; surrogate code points (which
   CPython strings can hold but Lean characters cannot) are modelled as a
   failure. -/
def charOfNat (n : Nat) : Option Char :=
  if n < 0xD800 ∨ (0xE000 ≤ n ∧ n < 0x110000) then some (Char.ofNat n)
  else none

/- Mapping a fallible function over a list, failing if any element fails
   (the shape of a Python list comprehension whose body may raise). -/
def mapOpt (f : α → Option β) : List α → Option (List β)
  | [] => some []
  | a :: t =>
    match f a, mapOpt f t with
    | some b, some r => some (b :: r)
    | _, _ => none

def cpToStr (l : List Nat) : Option Str := mapOpt charOfNat l

/- The Unescaper applied to a character string, as in the source. -/
def unescapeStr (s : Str) : Option Str :=
  (uescDecode (utf8Encode (strToCp s))).bind cpToStr

def hexDigitCp (d : Nat) : Nat := if d < 10 then 48 + d else 87 + d

/- Modelled from the spec: the "standard backslash escaping" whose left
   inverse the Unescaper is claimed to be, written over code points.
   Quotes, backslashes, newlines, tabs and carriage returns get their
   short escapes, other control characters get a \uXXXX escape, and every
   other character — including non-ASCII text, which the spec says the
   Unescaper reads back as UTF-8 — is kept literally. -/
def specEscapeCp (n : Nat) : List Nat :=
  if n = 34 then [92, 34]
  else if n = 92 then [92, 92]
  else if n = 10 then [92, 110]
  else if n = 9 then [92, 116]
  else if n = 13 then [92, 114]
  else if n < 0x20 then [92, 117, 48, 48, hexDigitCp (n / 16), hexDigitCp (n % 16)]
  else [n]

/- The same escaping as a string-to-string map (every code point it emits
   is a valid scalar value, so the conversion back to characters is
   exact). -/
def specEscape (s : Str) : Str := ((strToCp s).flatMap specEscapeCp).map Char.ofNat

theorem utf8Bytes_ascii (n : Nat) (h : n < 128) : utf8Bytes n = [n] := by
  simp [utf8Bytes, h]

theorem utf8Encode_ascii : ∀ l : List Nat, (∀ x ∈ l, x < 128) →
    utf8Encode l = l := by
  intro l
  induction l with
  | nil => intro _; rfl
  | cons x t ih =>
    intro h
    have hx := h x (List.mem_cons_self x t)
    have ht := ih (fun y hy => h y (List.mem_cons_of_mem x hy))
    simp only [utf8Encode, List.flatMap_cons] at ht ⊢
    rw [utf8Bytes_ascii x hx, ht]
    rfl

theorem char_toNat_ofNat (n : Nat) (h : n < 0xD800 ∨ (0xE000 ≤ n ∧ n < 0x110000)) :
    (Char.ofNat n).toNat = n := by
  unfold Char.ofNat
  rcases h with h | ⟨h1, h2⟩
  · rw [dif_pos (Or.inl (by omega))]
    rfl
  · rw [dif_pos (Or.inr ⟨by omega, by omega⟩)]
    rfl

theorem char_valid_bounds (c : Char) :
    c.toNat < 0xD800 ∨ (0xE000 ≤ c.toNat ∧ c.toNat < 0x110000) := by
  rcases c.valid with h | ⟨h1, h2⟩
  · left
    exact h
  · right
    refine ⟨?_, h2⟩
    change 0xE000 ≤ c.val.toNat
    omega

theorem charOfNat_toNat (c : Char) : charOfNat c.toNat = some c := by
  rw [charOfNat, if_pos (char_valid_bounds c), Char.ofNat_toNat]

theorem cpToStr_strToCp : ∀ s : Str, cpToStr (strToCp s) = some s := by
  intro s
  induction s with
  | nil => rfl
  | cons c t ih =>
    have ih2 : mapOpt charOfNat (t.map Char.toNat) = some t := ih
    simp only [strToCp, List.map_cons, cpToStr, mapOpt, ih2, charOfNat_toNat]

theorem hexDigitCp_lt (d : Nat) (h : d < 16) : hexDigitCp d < 128 := by
  rw [hexDigitCp]
  split <;> omega

theorem specEscapeCp_ascii (n : Nat) (h : n < 128) :
    ∀ x ∈ specEscapeCp n, x < 128 := by
  intro x hx
  rw [specEscapeCp] at hx
  split_ifs at hx with h1 h2 h3 h4 h5 h6
  · simp only [List.mem_cons, List.not_mem_nil, or_false] at hx
    rcases hx with rfl | rfl <;> omega
  · simp only [List.mem_cons, List.not_mem_nil, or_false] at hx
    rcases hx with rfl | rfl <;> omega
  · simp only [List.mem_cons, List.not_mem_nil, or_false] at hx
    rcases hx with rfl | rfl <;> omega
  · simp only [List.mem_cons, List.not_mem_nil, or_false] at hx
    rcases hx with rfl | rfl <;> omega
  · simp only [List.mem_cons, List.not_mem_nil, or_false] at hx
    rcases hx with rfl | rfl <;> omega
  · simp only [List.mem_cons, List.not_mem_nil, or_false] at hx
    rcases hx with rfl | rfl | rfl | rfl | rfl | rfl
    · omega
    · omega
    · omega
    · omega
    · exact hexDigitCp_lt _ (by omega)
    · exact hexDigitCp_lt _ (by omega)
  · simp only [List.mem_cons, List.not_mem_nil, or_false] at hx
    subst hx
    omega

theorem hexVal_hexDigitCp (d : Nat) (h : d < 16) :
    hexVal (hexDigitCp d) = some d := by
  interval_cases d <;> decide


theorem hex2_length (l : List Nat) (vr : Nat × List Nat)
    (h : hex2? l = some vr) : vr.2.length + 2 = l.length := by
  cases l with
  | nil => simp [hex2?] at h
  | cons a t1 =>
    cases t1 with
    | nil => simp [hex2?] at h
    | cons b2 t2 =>
      simp only [hex2?] at h
      rcases hv1 : hexVal a with - | v1 <;> rw [hv1] at h
      · simp at h
      · rcases hv2 : hexVal b2 with - | v2 <;> rw [hv2] at h
        · simp at h
        · obtain rfl : vr = (v1 * 16 + v2, t2) := (Option.some.inj h).symm
          simp

theorem hex4_length (l : List Nat) (vr : Nat × List Nat)
    (h : hex4? l = some vr) : vr.2.length + 4 = l.length := by
  rw [hex4?] at h
  cases hx1 : hex2? l with
  | none => rw [hx1] at h; simp at h
  | some vr1 =>
    rw [hx1, Option.some_bind] at h
    cases hx2 : hex2? vr1.2 with
    | none => rw [hx2] at h; simp at h
    | some vr2 =>
      rw [hx2, Option.map_some'] at h
      have l1 := hex2_length l vr1 hx1
      have l2 := hex2_length vr1.2 vr2 hx2
      obtain rfl : vr = (vr1.1 * 256 + vr2.1, vr2.2) := (Option.some.inj h).symm
      simp only []
      omega

theorem hex8_length (l : List Nat) (vr : Nat × List Nat)
    (h : hex8? l = some vr) : vr.2.length + 8 = l.length := by
  rw [hex8?] at h
  cases hx1 : hex4? l with
  | none => rw [hx1] at h; simp at h
  | some vr1 =>
    rw [hx1, Option.some_bind] at h
    cases hx2 : hex4? vr1.2 with
    | none => rw [hx2] at h; simp at h
    | some vr2 =>
      rw [hx2, Option.map_some'] at h
      have l1 := hex4_length l vr1 hx1
      have l2 := hex4_length vr1.2 vr2 hx2
      obtain rfl : vr = (vr1.1 * 65536 + vr2.1, vr2.2) := (Option.some.inj h).symm
      simp only []
      omega

theorem octRest_length (d0 : Nat) : ∀ l : List Nat,
    (octRest d0 l).2.length ≤ l.length := by
  intro l
  cases l with
  | nil => simp [octRest]
  | cons o1 t =>
    cases ho1 : octVal o1 with
    | none => simp [octRest, ho1]
    | some d1 =>
      cases t with
      | nil => simp [octRest, ho1]
      | cons o2 t2 =>
        cases ho2 : octVal o2 with
        | none => simp [octRest, ho1, ho2]
        | some d2 => simp [octRest, ho1, ho2] <;> omega

theorem uescDecodeF_irrel : ∀ f1 : Nat, ∀ f2 l, l.length < f1 →
    l.length < f2 → uescDecodeF f1 l = uescDecodeF f2 l := by
  intro f1
  induction f1 with
  | zero => intro f2 l h1 _; omega
  | succ g ih =>
    intro f2 l h1 h2
    cases f2 with
    | zero => omega
    | succ h =>
      cases l with
      | nil => rfl
      | cons b t =>
        cases t with
        | nil =>
          simp only [List.length_cons] at h1 h2
          simp only [uescDecodeF.eq_3]
          by_cases hb : b ≠ 92
          · rw [if_pos hb, if_pos hb, ih h [] (by omega) (by omega)]
          · rw [if_neg hb, if_neg hb]
        | cons e t2 =>
          simp only [List.length_cons] at h1 h2
          have hlg : t2.length < g := by omega
          have hlh : t2.length < h := by omega
          simp only [uescDecodeF.eq_4]
          by_cases hb : b ≠ 92
          · rw [if_pos hb, if_pos hb,
              ih h (e :: t2) (by simp only [List.length_cons]; omega)
              (by simp only [List.length_cons]; omega)]
          · rw [if_neg hb, if_neg hb]
            by_cases hc10 : e = 10
            · rw [if_pos hc10, if_pos hc10, ih h t2 hlg hlh]
            rw [if_neg hc10, if_neg hc10]
            by_cases hc92 : e = 92
            · rw [if_pos hc92, if_pos hc92, ih h t2 hlg hlh]
            rw [if_neg hc92, if_neg hc92]
            by_cases hc39 : e = 39
            · rw [if_pos hc39, if_pos hc39, ih h t2 hlg hlh]
            rw [if_neg hc39, if_neg hc39]
            by_cases hc34 : e = 34
            · rw [if_pos hc34, if_pos hc34, ih h t2 hlg hlh]
            rw [if_neg hc34, if_neg hc34]
            by_cases hc97 : e = 97
            · rw [if_pos hc97, if_pos hc97, ih h t2 hlg hlh]
            rw [if_neg hc97, if_neg hc97]
            by_cases hc98 : e = 98
            · rw [if_pos hc98, if_pos hc98, ih h t2 hlg hlh]
            rw [if_neg hc98, if_neg hc98]
            by_cases hc102 : e = 102
            · rw [if_pos hc102, if_pos hc102, ih h t2 hlg hlh]
            rw [if_neg hc102, if_neg hc102]
            by_cases hc110 : e = 110
            · rw [if_pos hc110, if_pos hc110, ih h t2 hlg hlh]
            rw [if_neg hc110, if_neg hc110]
            by_cases hc114 : e = 114
            · rw [if_pos hc114, if_pos hc114, ih h t2 hlg hlh]
            rw [if_neg hc114, if_neg hc114]
            by_cases hc116 : e = 116
            · rw [if_pos hc116, if_pos hc116, ih h t2 hlg hlh]
            rw [if_neg hc116, if_neg hc116]
            by_cases hc118 : e = 118
            · rw [if_pos hc118, if_pos hc118, ih h t2 hlg hlh]
            rw [if_neg hc118, if_neg hc118]
            by_cases hc120 : e = 120
            · rw [if_pos hc120, if_pos hc120]
              cases hx : hex2? t2 with
              | none => rfl
              | some vr =>
                have := hex2_length t2 vr hx
                rw [Option.some_bind, Option.some_bind,
                  ih h vr.2 (by omega) (by omega)]
            rw [if_neg hc120, if_neg hc120]
            by_cases hc117 : e = 117
            · rw [if_pos hc117, if_pos hc117]
              cases hx : hex4? t2 with
              | none => rfl
              | some vr =>
                have := hex4_length t2 vr hx
                rw [Option.some_bind, Option.some_bind,
                  ih h vr.2 (by omega) (by omega)]
            rw [if_neg hc117, if_neg hc117]
            by_cases hc85 : e = 85
            · rw [if_pos hc85, if_pos hc85]
              cases hx : hex8? t2 with
              | none => rfl
              | some vr =>
                have := hex8_length t2 vr hx
                rw [Option.some_bind, Option.some_bind]
                by_cases hv : vr.1 < 0x110000
                · rw [if_pos hv, if_pos hv, ih h vr.2 (by omega) (by omega)]
                · rw [if_neg hv, if_neg hv]
            rw [if_neg hc85, if_neg hc85]
            by_cases hc78 : e = 78
            · rw [if_pos hc78, if_pos hc78]
            rw [if_neg hc78, if_neg hc78]
            cases octVal e with
            | none => rw [Option.elim_none, Option.elim_none, ih h t2 hlg hlh]
            | some d0 =>
              have := octRest_length d0 t2
              rw [Option.elim_some, Option.elim_some,
                ih h (octRest d0 t2).2 (by omega) (by omega)]


theorem uescDecodeF_cons_lit (f : Nat) (b : Nat) (hb : b ≠ 92)
    (t : List Nat) :
    uescDecodeF (f + 1) (b :: t) = (uescDecodeF f t).map (b :: ·) := by
  cases t with
  | nil => rw [uescDecodeF.eq_3, if_pos hb]
  | cons c t2 => rw [uescDecodeF.eq_4, if_pos hb]

theorem uescDecode_cons_lit (b : Nat) (hb : b ≠ 92) (t : List Nat) :
    uescDecode (b :: t) = (uescDecode t).map (b :: ·) := by
  rw [uescDecode, uescDecode]
  simp only [List.length_cons]
  rw [uescDecodeF_cons_lit (t.length + 1) b hb t]

theorem uescDecode_quote (t : List Nat) :
    uescDecode (92 :: 34 :: t) = (uescDecode t).map (34 :: ·) := by
  rw [uescDecode, uescDecode]
  simp only [List.length_cons]
  rw [uescDecodeF.eq_4]
  norm_num
  rw [uescDecodeF_irrel (t.length + 1 + 1) (t.length + 1) t (by omega) (by omega)]

theorem uescDecode_backslash (t : List Nat) :
    uescDecode (92 :: 92 :: t) = (uescDecode t).map (92 :: ·) := by
  rw [uescDecode, uescDecode]
  simp only [List.length_cons]
  rw [uescDecodeF.eq_4]
  norm_num
  rw [uescDecodeF_irrel (t.length + 1 + 1) (t.length + 1) t (by omega) (by omega)]

theorem uescDecode_nl (t : List Nat) :
    uescDecode (92 :: 110 :: t) = (uescDecode t).map (10 :: ·) := by
  rw [uescDecode, uescDecode]
  simp only [List.length_cons]
  rw [uescDecodeF.eq_4]
  norm_num
  rw [uescDecodeF_irrel (t.length + 1 + 1) (t.length + 1) t (by omega) (by omega)]

theorem uescDecode_tab (t : List Nat) :
    uescDecode (92 :: 116 :: t) = (uescDecode t).map (9 :: ·) := by
  rw [uescDecode, uescDecode]
  simp only [List.length_cons]
  rw [uescDecodeF.eq_4]
  norm_num
  rw [uescDecodeF_irrel (t.length + 1 + 1) (t.length + 1) t (by omega) (by omega)]

theorem uescDecode_cr (t : List Nat) :
    uescDecode (92 :: 114 :: t) = (uescDecode t).map (13 :: ·) := by
  rw [uescDecode, uescDecode]
  simp only [List.length_cons]
  rw [uescDecodeF.eq_4]
  norm_num
  rw [uescDecodeF_irrel (t.length + 1 + 1) (t.length + 1) t (by omega) (by omega)]

theorem hex2_cons (a b va vb : Nat) (ha : hexVal a = some va)
    (hb : hexVal b = some vb) (t : List Nat) :
    hex2? (a :: b :: t) = some (va * 16 + vb, t) := by
  simp [hex2?, ha, hb]

theorem hex4_cons (a b c d va vb vc vd : Nat) (ha : hexVal a = some va)
    (hb : hexVal b = some vb) (hc : hexVal c = some vc)
    (hd : hexVal d = some vd) (t : List Nat) :
    hex4? (a :: b :: c :: d :: t)
      = some ((va * 16 + vb) * 256 + (vc * 16 + vd), t) := by
  rw [hex4?, hex2_cons a b va vb ha hb, Option.some_bind,
    hex2_cons c d vc vd hc hd, Option.map_some']

theorem uescDecode_u4 (a b c d va vb vc vd : Nat) (ha : hexVal a = some va)
    (hb : hexVal b = some vb) (hc : hexVal c = some vc)
    (hd : hexVal d = some vd) (t : List Nat) :
    uescDecode (92 :: 117 :: a :: b :: c :: d :: t)
      = (uescDecode t).map (((va * 16 + vb) * 256 + (vc * 16 + vd)) :: ·) := by
  rw [uescDecode, uescDecode]
  simp only [List.length_cons]
  rw [uescDecodeF.eq_4]
  norm_num
  rw [hex4_cons a b c d va vb vc vd ha hb hc hd t, Option.some_bind]
  rw [uescDecodeF_irrel (t.length + 1 + 1 + 1 + 1 + 1 + 1) (t.length + 1) t
    (by omega) (by omega)]

theorem uescDecode_specEscape : ∀ l : List Nat, (∀ n ∈ l, n < 128) →
    uescDecode (l.flatMap specEscapeCp) = some l := by
  intro l
  induction l with
  | nil => intro _; rfl
  | cons n l2 ih =>
    intro h
    have hn := h n (List.mem_cons_self n l2)
    have ih2 := ih (fun y hy => h y (List.mem_cons_of_mem n hy))
    rw [List.flatMap_cons]
    by_cases h34 : n = 34
    · subst h34
      rw [specEscapeCp]
      norm_num
      rw [uescDecode_quote, ih2, Option.map_some']
    by_cases h92 : n = 92
    · subst h92
      rw [specEscapeCp]
      norm_num
      rw [uescDecode_backslash, ih2, Option.map_some']
    by_cases h10 : n = 10
    · subst h10
      rw [specEscapeCp]
      norm_num
      rw [uescDecode_nl, ih2, Option.map_some']
    by_cases h9 : n = 9
    · subst h9
      rw [specEscapeCp]
      norm_num
      rw [uescDecode_tab, ih2, Option.map_some']
    by_cases h13 : n = 13
    · subst h13
      rw [specEscapeCp]
      norm_num
      rw [uescDecode_cr, ih2, Option.map_some']
    by_cases hctl : n < 0x20
    · rw [specEscapeCp, if_neg h34, if_neg h92, if_neg h10, if_neg h9,
        if_neg h13, if_pos hctl]
      rw [List.cons_append, List.cons_append, List.cons_append,
        List.cons_append, List.cons_append, List.singleton_append]
      rw [uescDecode_u4 48 48 (hexDigitCp (n / 16)) (hexDigitCp (n % 16))
        0 0 (n / 16) (n % 16) (by decide) (by decide)
        (hexVal_hexDigitCp (n / 16) (by omega))
        (hexVal_hexDigitCp (n % 16) (by omega))]
      rw [ih2, Option.map_some']
      congr 2
      omega
    · rw [specEscapeCp, if_neg h34, if_neg h92, if_neg h10, if_neg h9,
        if_neg h13, if_neg hctl, List.singleton_append]
      rw [uescDecode_cons_lit n h92 (l2.flatMap specEscapeCp), ih2,
        Option.map_some']

theorem strToCp_map_ofNat : ∀ l : List Nat, (∀ n ∈ l, n < 128) →
    strToCp (l.map Char.ofNat) = l := by
  intro l
  induction l with
  | nil => intro _; rfl
  | cons n l2 ih =>
    intro h
    have hn := h n (List.mem_cons_self n l2)
    have ih2 := ih (fun y hy => h y (List.mem_cons_of_mem n hy))
    simp only [List.map_cons, strToCp] at ih2 ⊢
    rw [ih2, char_toNat_ofNat n (Or.inl (by omega))]

/-- Claim C4 is corrected.  Counterexample to the claim as stated: the
Unescaper does not treat its input bytes as UTF-8 text — it decodes them
as Latin-1 (the unicode_escape codec).  For the plain string "é", whose
standard escape keeps the character literal, unescaping the escape yields
the two-character mojibake "Ã©" rather than "é", so the Unescaper is not
a left inverse of standard escaping on non-ASCII text. -/
theorem C4_unescaper_counterexample :
    unescapeStr (specEscape (lit ("é"))) ≠ some (lit ("é")) ∧
    unescapeStr (lit ("é")) = some (lit ("Ã©")) := by
  exact ⟨by decide, by decide⟩

/-- Claim C4 (amended): restricted to ASCII plain strings the Unescaper is
a left inverse of standard backslash escaping: for every string s all of
whose characters are ASCII, decoding the standard escape of s (through the
UTF-8 encoding and the unicode_escape byte decoder of the source) yields
s again. -/
theorem C4_unescaper_amended (s : Str) (h : ∀ c ∈ s, c.toNat < 128) :
    unescapeStr (specEscape s) = some s := by
  have hcp : ∀ n ∈ strToCp s, n < 128 := by
    intro n hn
    rw [strToCp] at hn
    obtain ⟨c, hc, rfl⟩ := List.mem_map.mp hn
    exact h c hc
  have hall : ∀ x ∈ (strToCp s).flatMap specEscapeCp, x < 128 := by
    intro x hx
    obtain ⟨n, hn, hx2⟩ := List.mem_flatMap.mp hx
    exact specEscapeCp_ascii n (hcp n hn) x hx2
  rw [unescapeStr, specEscape, strToCp_map_ofNat _ hall,
    utf8Encode_ascii _ hall, uescDecode_specEscape _ hcp, Option.some_bind,
    cpToStr_strToCp]

/-- Witness for the amended claim C4 on a concrete ASCII string exercising
the quote, backslash, newline, tab and control-character escapes. -/
theorem C4_unescaper_amended_witness :
    unescapeStr (specEscape (lit ("a\"b\\c\nd\te\x01f"))) =
      some (lit ("a\"b\\c\nd\te\x01f")) :=
  C4_unescaper_amended (lit ("a\"b\\c\nd\te\x01f")) (by decide)

/- Translation of raw.find(sub, idx): the smallest position i ≥ idx at
   which sub occurs in raw (an occurrence at the very end is possible for
   the empty pattern, hence the range bound length + 1); none models the
   return value -1. -/
def findFrom (raw sub : Str) (idx : Nat) : Option Nat :=
  ((List.range (raw.length + 1)).filter
    (fun i => decide (idx ≤ i) && sub.isPrefixOf (raw.drop i))).head?

/- All positions at which sub occurs in raw, in ascending order. -/
def occList (raw sub : Str) : List Nat :=
  (List.range (raw.length + 1)).filter (fun i => sub.isPrefixOf (raw.drop i))

def occFrom (raw sub : Str) (idx : Nat) : List Nat :=
  (List.range (raw.length + 1)).filter
    (fun i => decide (idx ≤ i) && sub.isPrefixOf (raw.drop i))

/- The error taxonomy of the extraction stage: UnbalancedBraces and
   MalformedEscape are the two ValueError forms raised below the scan
   loops, NoBlocksFound is the final "can't find any JSON blocks" error. -/
inductive PErr where
  | unbalanced : PErr
  | badEscape : PErr
  | noBlocks : PErr
deriving DecidableEq

/- One scan loop of cut_all_json_blocks: repeatedly find the anchor
   starting at idx, cut the brace-balanced block there, post-process it
   (identity for the plain scan, the Unescaper for the escaped scan), and
   resume one character past the match start.  Structural on a fuel
   argument; the wrapper supplies fuel that can never run out because the
   resume position strictly increases and is bounded by the text length. -/
def scanCutF (raw sub : Str) (post : Str → Option Str) :
    Nat → Nat → Except PErr (List Str)
  | 0, _ => .ok []
  | f + 1, idx =>
    (findFrom raw sub idx).elim (.ok [])
      (fun i =>
        (brace_cut raw i).elim (.error .unbalanced)
          (fun cut =>
            (post cut).elim (.error .badEscape)
              (fun blk =>
                (scanCutF raw sub post f (i + 1)).map (blk :: ·))))

def scanCut (raw sub : Str) (post : Str → Option Str) (idx : Nat) :
    Except PErr (List Str) :=
  scanCutF raw sub post (raw.length + 2) idx

def anchorPlain : Str := lit ("\x7b\"success\"")

def anchorEsc : Str := lit ("\x7b\\\"success\\\"")

/- Translation of cut_all_json_blocks: the plain scan, then the escaped
   scan (whose cuts are unescaped), concatenated; an empty result raises
   the NoBlocksFound ValueError. -/
def cut_all_json_blocks (raw : Str) : Except PErr (List Str) :=
  (scanCut raw anchorPlain some 0).bind (fun b1 =>
    (scanCut raw anchorEsc unescapeStr 0).bind (fun b2 =>
      if (b1 ++ b2).isEmpty then .error .noBlocks else .ok (b1 ++ b2)))

theorem except_bind_ok {α β ε : Type} (a : α) (f : α → Except ε β) :
    (Except.ok a).bind f = f a := rfl

theorem except_bind_err {α β ε : Type} (e : ε) (f : α → Except ε β) :
    (Except.error e).bind f = (Except.error e : Except ε β) := rfl

theorem head_filter_sorted (p : Nat → Bool) :
    ∀ l : List Nat, List.Pairwise (· < ·) l → ∀ i, (l.filter p).head? = some i →
      i ∈ l ∧ p i = true ∧ ∀ j ∈ l, j < i → p j = false := by
  intro l
  induction l with
  | nil => intro _ i h; simp at h
  | cons a t ih =>
    intro hp i h
    rw [List.filter_cons] at h
    by_cases hpa : p a
    · rw [if_pos hpa] at h
      obtain rfl : a = i := by simpa using h
      refine ⟨List.mem_cons_self a t, hpa, ?_⟩
      intro j hj hlt
      rcases List.mem_cons.mp hj with rfl | hj2
      · omega
      · have := (List.pairwise_cons.mp hp).1 j hj2
        omega
    · rw [if_neg hpa] at h
      obtain ⟨hmem, hpi, hmin⟩ := ih (List.pairwise_cons.mp hp).2 i h
      refine ⟨List.mem_cons_of_mem a hmem, hpi, ?_⟩
      intro j hj hlt
      rcases List.mem_cons.mp hj with rfl | hj2
      · simpa using hpa
      · exact hmin j hj2 hlt

theorem filter_head_cons (p q : Nat → Bool) (i : Nat)
    (hq : ∀ j, q j = true ↔ (p j = true ∧ i < j)) :
    ∀ l : List Nat, List.Pairwise (· < ·) l → (l.filter p).head? = some i →
      l.filter p = i :: l.filter q := by
  intro l
  induction l with
  | nil => intro _ h; simp at h
  | cons a t ih =>
    intro hp h
    rw [List.filter_cons] at h ⊢
    rw [List.filter_cons]
    by_cases hpa : p a
    · rw [if_pos hpa] at h ⊢
      obtain rfl : a = i := by simpa using h
      have hqa : q a = false := by
        rcases hqa : q a with - | -
        · rfl
        · obtain ⟨-, h2⟩ := (hq a).mp hqa
          omega
      simp only [hqa, Bool.false_eq_true, if_false]
      have : List.filter p t = List.filter q t := by
        apply List.filter_congr
        intro j hj
        have halt := (List.pairwise_cons.mp hp).1 j hj
        rcases hpj : p j with - | -
        · rcases hqj : q j with - | -
          · rfl
          · obtain ⟨h1, -⟩ := (hq j).mp hqj
            rw [hpj] at h1
            exact absurd h1 (by simp)
        · rw [(hq j).mpr ⟨hpj, halt⟩]
      rw [this]
    · rw [if_neg hpa] at h ⊢
      have hres := ih (List.pairwise_cons.mp hp).2 h
      have hqa : q a = false := by
        rcases hqa : q a with - | -
        · rfl
        · obtain ⟨h1, -⟩ := (hq a).mp hqa
          rw [h1] at hpa
          exact absurd rfl hpa
      simp only [hqa, Bool.false_eq_true, if_false]
      exact hres

theorem findFrom_none (raw sub : Str) (idx : Nat)
    (h : findFrom raw sub idx = none) :
    ∀ i, i ≤ raw.length → idx ≤ i → sub.isPrefixOf (raw.drop i) = false := by
  intro i hle hidx
  rw [findFrom, List.head?_eq_none_iff, List.filter_eq_nil_iff] at h
  have := h i (List.mem_range.mpr (by omega))
  rcases hpre : sub.isPrefixOf (raw.drop i) with - | -
  · rfl
  · exfalso
    exact this (by simp [hpre, hidx])

theorem findFrom_some (raw sub : Str) (idx i : Nat)
    (h : findFrom raw sub idx = some i) :
    idx ≤ i ∧ i ≤ raw.length ∧ sub.isPrefixOf (raw.drop i) = true := by
  rw [findFrom] at h
  obtain ⟨hmem, hpi, -⟩ :=
    head_filter_sorted _ _ (List.pairwise_lt_range (raw.length + 1)) i h
  simp only [Bool.and_eq_true, decide_eq_true_eq] at hpi
  exact ⟨hpi.1, by have := List.mem_range.mp hmem; omega, hpi.2⟩

theorem occFrom_cons (raw sub : Str) (idx i : Nat)
    (h : findFrom raw sub idx = some i) :
    occFrom raw sub idx = i :: occFrom raw sub (i + 1) := by
  obtain ⟨hidx, hlen, -⟩ := findFrom_some raw sub idx i h
  rw [findFrom] at h
  rw [occFrom, occFrom]
  apply filter_head_cons _ _ i _ _ (List.pairwise_lt_range (raw.length + 1)) h
  intro j
  simp only [Bool.and_eq_true, decide_eq_true_eq]
  constructor
  · rintro ⟨h1, h2⟩
    exact ⟨⟨by omega, h2⟩, by omega⟩
  · rintro ⟨⟨h1, h2⟩, h3⟩
    exact ⟨by omega, h2⟩

theorem occFrom_nil (raw sub : Str) (idx : Nat)
    (h : findFrom raw sub idx = none) : occFrom raw sub idx = [] := by
  rw [occFrom, List.filter_eq_nil_iff]
  intro a ha
  rw [findFrom, List.head?_eq_none_iff, List.filter_eq_nil_iff] at h
  exact h a ha

theorem occList_eq_occFrom (raw sub : Str) :
    occList raw sub = occFrom raw sub 0 := by
  rw [occList, occFrom]
  apply List.filter_congr
  intro j _
  simp

/- The scan loop collects exactly the cuts at all anchor occurrences at
   or after the start index, in ascending order: success of the loop is
   success of cutting (and post-processing) at every occurrence. -/
theorem scanCutF_ok (raw sub : Str) (post : Str → Option Str) :
    ∀ fuel idx bs, raw.length + 2 - idx ≤ fuel →
      scanCutF raw sub post fuel idx = .ok bs →
      mapOpt (fun i => (brace_cut raw i).bind post) (occFrom raw sub idx)
        = some bs := by
  intro fuel
  induction fuel with
  | zero =>
    intro idx bs hf h
    obtain rfl : ([] : List Str) = bs := by
      simpa [scanCutF] using h
    have hnone : findFrom raw sub idx = none := by
      rw [findFrom, List.head?_eq_none_iff, List.filter_eq_nil_iff]
      intro a ha
      have := List.mem_range.mp ha
      simp only [Bool.and_eq_true, decide_eq_true_eq, not_and]
      intro hidx
      omega
    rw [occFrom_nil raw sub idx hnone]
    rfl
  | succ f ih =>
    intro idx bs hf h
    rw [scanCutF] at h
    cases hfind : findFrom raw sub idx with
    | none =>
      simp only [hfind, Option.elim_none] at h
      obtain rfl : ([] : List Str) = bs := by simpa using h
      rw [occFrom_nil raw sub idx hfind]
      rfl
    | some i =>
      simp only [hfind, Option.elim_some] at h
      obtain ⟨hidx, hlen, -⟩ := findFrom_some raw sub idx i hfind
      cases hcut : brace_cut raw i with
      | none => simp [hcut] at h
      | some cut =>
        simp only [hcut, Option.elim_some] at h
        cases hpost : post cut with
        | none => simp [hpost] at h
        | some blk =>
          simp only [hpost, Option.elim_some] at h
          cases hrest : scanCutF raw sub post f (i + 1) with
          | error err => simp [hrest, Except.map] at h
          | ok rest =>
            rw [hrest] at h
            obtain rfl : blk :: rest = bs := by
              simpa [Except.map] using h
            have := ih (i + 1) rest (by omega) hrest
            rw [occFrom_cons raw sub idx i hfind]
            simp only [mapOpt, hcut, Option.some_bind, hpost, this]

theorem bind_some_id (x : Option Str) : x.bind some = x := by
  cases x <;> rfl

/-- Claim C5 (confirmed): when cut_all_json_blocks succeeds, the returned
sequence is exactly the brace-balanced cuts at ALL occurrences of the
literal anchor, in ascending position order — the scan resumes one
character past each previous match start, so every occurrence, however
close to the previous one, is found — followed by the cuts at all
occurrences of the escaped anchor, and exactly the escaped-anchor cuts
pass through the Unescaper before being appended. -/
theorem C5_locator (raw : Str) (bs : List Str)
    (h : cut_all_json_blocks raw = .ok bs) :
    ∃ plain esc, bs = plain ++ esc ∧
      mapOpt (fun i => brace_cut raw i) (occList raw anchorPlain)
        = some plain ∧
      mapOpt (fun i => (brace_cut raw i).bind unescapeStr)
        (occList raw anchorEsc) = some esc := by
  rw [cut_all_json_blocks] at h
  cases h1 : scanCut raw anchorPlain some 0 with
  | error e => rw [h1, except_bind_err] at h; exact absurd h (by simp)
  | ok b1 =>
    rw [h1, except_bind_ok] at h
    cases h2 : scanCut raw anchorEsc unescapeStr 0 with
    | error e => rw [h2, except_bind_err] at h; exact absurd h (by simp)
    | ok b2 =>
      rw [h2, except_bind_ok] at h
      by_cases hemp : (b1 ++ b2).isEmpty
      · rw [if_pos hemp] at h
        exact absurd h (by simp)
      · rw [if_neg hemp] at h
        obtain rfl : b1 ++ b2 = bs := by simpa using h
        rw [scanCut] at h1 h2
        refine ⟨b1, b2, rfl, ?_, ?_⟩
        · have hm := scanCutF_ok raw anchorPlain some (raw.length + 2) 0 b1
            (by omega) h1
          rw [occList_eq_occFrom]
          have hfun : (fun i => (brace_cut raw i).bind some)
              = (fun i => brace_cut raw i) := by
            funext i
            exact bind_some_id (brace_cut raw i)
          rw [hfun] at hm
          exact hm
        · have hm := scanCutF_ok raw anchorEsc unescapeStr (raw.length + 2) 0
            b2 (by omega) h2
          rw [occList_eq_occFrom]
          exact hm

/-- Witness for claim C5 on a concrete document consisting of one literal
block: the plain-anchor occurrence list maps to exactly that block. -/
theorem C5_locator_witness :
    mapOpt (fun i => brace_cut (lit ("\x7b\"success\":1\x7d")) i)
        (occList (lit ("\x7b\"success\":1\x7d")) anchorPlain)
      = some [lit ("\x7b\"success\":1\x7d")] := by
  obtain ⟨plain, esc, hsum, hp, he⟩ :=
    C5_locator (lit ("\x7b\"success\":1\x7d")) [lit ("\x7b\"success\":1\x7d")]
      (by rfl)
  have hocc : occList (lit ("\x7b\"success\":1\x7d")) anchorEsc = [] := by
    decide
  rw [hocc] at he
  have hesc : esc = [] := by
    have : (some [] : Option (List Str)) = some esc := he
    simpa using this.symm
  subst hesc
  rw [List.append_nil] at hsum
  rw [← hsum] at hp
  exact hp

/- JSON values as produced by json.loads: objects are key/value pair
   lists in insertion order (CPython dicts preserve insertion order and
   have unique keys).  Numbers are modelled as integers; no claim touches
   fractional values. -/
inductive JVal where
  | null : JVal
  | bool : Bool → JVal
  | num : Int → JVal
  | str : Str → JVal
  | arr : List JVal → JVal
  | obj : List (Str × JVal) → JVal

abbrev Obj := List (Str × JVal)

/- d.get(k): the value at the first matching key, if any. -/
def dictGet (m : Obj) (k : Str) : Option JVal :=
  (m.find? (fun p => decide (p.1 = k))).map (fun p => p.2)

/- d[k] = v on a CPython dict: an existing key keeps its position and
   gets the new value, a new key is appended at the end. -/
def dictSet (m : Obj) (k : Str) (v : JVal) : Obj :=
  if (dictGet m k).isSome then
    m.map (fun p => if p.1 = k then (k, v) else p)
  else m ++ [(k, v)]

/- str.split() whitespace (the ASCII whitespace characters; the scan is
   restricted to ASCII text as everywhere in this development). -/
def pyIsSpace (c : Char) : Bool :=
  c = ' ' || c = '\t' || c = '\n' || c = '\r' || c = '\x0b' || c = '\x0c'

def pySplitAux : Str → Str → List Str
  | [], acc => if acc.isEmpty then [] else [acc.reverse]
  | c :: r, acc =>
    if pyIsSpace c then
      if acc.isEmpty then pySplitAux r [] else acc.reverse :: pySplitAux r []
    else pySplitAux r (c :: acc)

/- str.split() with no argument: split on whitespace runs, no empty
   tokens. -/
def pySplit (s : Str) : List Str := pySplitAux s []

def digitVal (c : Char) : Nat := c.toNat - 48

/- Digit run of int(): decimal digits with single underscores allowed
   between digits (no leading, trailing or doubled underscore). -/
def pyDigitsGo (acc : Nat) : Str → Option Nat
  | [] => some acc
  | '_' :: d :: r =>
    if d.isDigit then pyDigitsGo (acc * 10 + digitVal d) r else none
  | ['_'] => none
  | c :: r => if c.isDigit then pyDigitsGo (acc * 10 + digitVal c) r else none

def pyIntDigits : Str → Option Nat
  | [] => none
  | c :: r => if c.isDigit then pyDigitsGo (digitVal c) r else none

/- int() on a token (tokens coming from split() carry no surrounding
   whitespace): an optional sign followed by a digit run. -/
def pyInt? : Str → Option Int
  | '+' :: r => (pyIntDigits r).map (fun n => (n : Int))
  | '-' :: r => (pyIntDigits r).map (fun n => -(n : Int))
  | s => (pyIntDigits s).map (fun n => (n : Int))

def getSeasonText (d : Obj) : Option Str :=
  match dictGet d (lit ("season")) with
  | some (JVal.str s) => some s
  | _ => none

/- The season-number derivation of parse_seasons:
   int(season_text.split()[-1]) under try/except, attempted only when the
   season field is a string. -/
def seasonNumOf (d : Obj) : Option Int :=
  (getSeasonText d).bind (fun s => ((pySplit s).getLast?).bind pyInt?)

def jvalOfSeasonNum : Option Int → JVal
  | some n => JVal.num n
  | none => JVal.null

/- data["seasonNumber"] = season_num (None becomes JSON null). -/
def normalizeOne (d : Obj) : Obj :=
  dictSet d (lit ("seasonNumber")) (jvalOfSeasonNum (seasonNumOf d))

/- The calendar validation done by the datetime constructor. -/
def daysInMonth (y m : Nat) : Nat :=
  if m = 2 then
    (if (y % 4 = 0 ∧ y % 100 ≠ 0) ∨ y % 400 = 0 then 29 else 28)
  else if m = 4 ∨ m = 6 ∨ m = 9 ∨ m = 11 then 30
  else 31

/- Field readers mirroring the CPython strptime regular expressions.
   %Y is exactly four digits; the other numeric fields accept one or two
   digits, a two-digit take being kept only when its value fits the
   two-digit alternatives of the pattern (otherwise the single-digit
   alternative applies, exactly as the regex alternation would). -/
def read4Digits : Str → Option (Nat × Str)
  | a :: b :: c :: d :: r =>
    if a.isDigit && b.isDigit && c.isDigit && d.isDigit then
      some (((digitVal a * 10 + digitVal b) * 10 + digitVal c) * 10
        + digitVal d, r)
    else none
  | _ => none

def read2or1 (ok2 : Nat → Bool) (ok1 : Nat → Bool) : Str → Option (Nat × Str)
  | [] => none
  | a :: r =>
    if a.isDigit then
      match r with
      | b :: r2 =>
        if b.isDigit && ok2 (digitVal a * 10 + digitVal b) then
          some (digitVal a * 10 + digitVal b, r2)
        else if ok1 (digitVal a) then some (digitVal a, b :: r2)
        else none
      | [] => if ok1 (digitVal a) then some (digitVal a, []) else none
    else none

def expectChar (c : Char) : Str → Option Str
  | a :: r => if a = c then some r else none
  | [] => none

/- The format's blank matches a nonempty whitespace run. -/
def skipWs1 : Str → Option Str
  | c :: r => if pyIsSpace c then some (r.dropWhile pyIsSpace) else none
  | [] => none

/- The datetime(...) constructor validation on the captured fields. -/
def mkDatetime (y m d h mi s : Nat) :
    Option (Nat × Nat × Nat × Nat × Nat × Nat) :=
  if 1 ≤ y ∧ 1 ≤ m ∧ m ≤ 12 ∧ 1 ≤ d ∧ d ≤ daysInMonth y m ∧ h ≤ 23
      ∧ mi ≤ 59 ∧ s ≤ 59 then
    some (y, m, d, h, mi, s)
  else none

/- datetime.strptime(s, "%Y-%m-%d %H:%M:%S"): the anchored full match of
   the generated pattern followed by the constructor validation. -/
def pyStrptime (s : Str) : Option (Nat × Nat × Nat × Nat × Nat × Nat) :=
  (read4Digits s).bind (fun yr =>
    (expectChar '-' yr.2).bind (fun r2 =>
      (read2or1 (fun v => 1 ≤ v && v ≤ 12) (fun v => 1 ≤ v) r2).bind
        (fun mr =>
          (expectChar '-' mr.2).bind (fun r4 =>
            (read2or1 (fun v => 1 ≤ v && v ≤ 31) (fun v => 1 ≤ v) r4).bind
              (fun dr =>
                (skipWs1 dr.2).bind (fun r6 =>
                  (read2or1 (fun v => v ≤ 23) (fun _ => true) r6).bind
                    (fun hr =>
                      (expectChar ':' hr.2).bind (fun r8 =>
                        (read2or1 (fun v => v ≤ 59) (fun _ => true) r8).bind
                          (fun minr =>
                            (expectChar ':' minr.2).bind (fun r10 =>
                              (read2or1 (fun v => v ≤ 61) (fun _ => true)
                                  r10).bind (fun sr =>
                                if sr.2.isEmpty then
                                  mkDatetime yr.1 mr.1 dr.1 hr.1 minr.1 sr.1
                                else none)))))))))))

/- A datetime is compared through a strictly monotone integer code, the
   stand-in for the POSIX timestamp (strictly monotone in the datetime
   under a fixed-offset clock); the multipliers exceed every field bound,
   so the code respects lexicographic datetime order. -/
def dtCode : Nat × Nat × Nat × Nat × Nat × Nat → Nat
  | (y, m, d, h, mi, s) => ((((y * 13 + m) * 32 + d) * 24 + h) * 60 + mi) * 61 + s

/- datetime.min, the value parse_dt substitutes for anything it cannot
   parse. -/
def dtMinCode : Nat := dtCode (1, 1, 1, 0, 0, 0)

/- Python falsiness, for the `if not s` test of parse_dt. -/
def jFalsy : JVal → Bool
  | .null => true
  | .bool b => !b
  | .num n => n = 0
  | .str s => s.isEmpty
  | .arr l => l.isEmpty
  | .obj l => l.isEmpty

/- parse_dt(d.get("startDate")): datetime.min for a missing or falsy
   value, for a non-string (strptime raises TypeError, caught by the bare
   except) and for an unparseable string. -/
def parse_dt (v : Option JVal) : Nat :=
  match v with
  | none => dtMinCode
  | some w =>
    if jFalsy w then dtMinCode
    else
      match w with
      | .str s =>
        match pyStrptime s with
        | some f => dtCode f
        | none => dtMinCode
      | _ => dtMinCode

/- d.get("endDate") is not None. -/
def hasEnd (d : Obj) : Bool :=
  match dictGet d (lit ("endDate")) with
  | none => false
  | some .null => false
  | some _ => true

/- The sort key tuple (endDate is not None, -timestamp); the negated
   timestamp is represented by reversing the comparison on the code. -/
def sortKey (d : Obj) : Bool × Nat :=
  (hasEnd d, parse_dt (dictGet d (lit ("startDate"))))

def keyLe (a b : Bool × Nat) : Bool :=
  if a.1 = b.1 then decide (b.2 ≤ a.2) else decide (a.1 = false)

def recLe (a b : Obj) : Bool := keyLe (sortKey a) (sortKey b)

/- seasons.sort(key=...) is CPython's stable ascending sort; any stable
   sort agreeing with a total preorder is extensionally unique, so it is
   modelled by stable insertion sort under recLe. -/
def insertRec (a : Obj) : List Obj → List Obj
  | [] => [a]
  | b :: l => if recLe a b then a :: b :: l else b :: insertRec a l

def sortSeasons : List Obj → List Obj
  | [] => []
  | a :: l => insertRec a (sortSeasons l)

/- parse_seasons after json.loads: normalize every parsed object, then
   sort. -/
def parse_seasons_objs (objs : List Obj) : List Obj :=
  sortSeasons (objs.map normalizeOne)

theorem dictGet_cons (a : Str) (w : JVal) (t : Obj) (k : Str) :
    dictGet ((a, w) :: t) k = if a = k then some w else dictGet t k := by
  by_cases hak : a = k
  · rw [if_pos hak, dictGet, List.find?_cons_of_pos _ (by simpa using hak)]
    rfl
  · rw [if_neg hak, dictGet, List.find?_cons_of_neg _ (by simpa using hak)]
    rfl

theorem dictGet_map_set (k : Str) (v : JVal) : ∀ m : Obj,
    (dictGet m k).isSome = true →
    dictGet (m.map (fun p => if p.1 = k then (k, v) else p)) k = some v := by
  intro m
  induction m with
  | nil => intro h; simp [dictGet] at h
  | cons p t ih =>
    obtain ⟨a, w⟩ := p
    intro h
    by_cases hak : a = k
    · simp only [List.map_cons, if_pos hak]
      rw [dictGet_cons]
      rw [if_pos rfl]
    · simp only [List.map_cons, if_neg hak]
      rw [dictGet_cons, if_neg hak]
      apply ih
      rw [dictGet_cons, if_neg hak] at h
      exact h

theorem dictGet_append_single (k : Str) (v : JVal) : ∀ m : Obj,
    dictGet m k = none → dictGet (m ++ [(k, v)]) k = some v := by
  intro m
  induction m with
  | nil =>
    intro _
    rw [List.nil_append, dictGet_cons, if_pos rfl]
  | cons p t ih =>
    obtain ⟨a, w⟩ := p
    intro h
    rw [dictGet_cons] at h
    by_cases hak : a = k
    · rw [if_pos hak] at h
      exact absurd h (by simp)
    · rw [if_neg hak] at h
      rw [List.cons_append, dictGet_cons, if_neg hak]
      exact ih h

theorem dictGet_normalizeOne (d : Obj) :
    dictGet (normalizeOne d) (lit ("seasonNumber"))
      = some (jvalOfSeasonNum (seasonNumOf d)) := by
  rw [normalizeOne, dictSet]
  by_cases h : (dictGet d (lit ("seasonNumber"))).isSome
  · rw [if_pos h]
    exact dictGet_map_set _ _ d h
  · rw [if_neg h]
    apply dictGet_append_single
    rcases hv : dictGet d (lit ("seasonNumber")) with - | w
    · rfl
    · rw [hv] at h
      simp at h

/-- Claim C7 (confirmed): the derived seasonNumber of a parsed object is
obtained — exactly when the season field is present and is a string — by
splitting that string on whitespace, taking the last token and parsing it
as an integer, any failure (or a missing or non-string season) giving the
absent value (JSON null; the computation is a total function, so it never
raises); in particular the record normalized from season "Season 7"
carries seasonNumber 7, and from season "Beta" or from an empty object it
carries the absent value. -/
theorem C7_season_number (d : Obj) :
    (seasonNumOf d = match dictGet d (lit ("season")) with
       | some (JVal.str s) => ((pySplit s).getLast?).bind pyInt?
       | _ => none)
    ∧ dictGet (normalizeOne d) (lit ("seasonNumber"))
        = some (jvalOfSeasonNum (seasonNumOf d))
    ∧ dictGet (normalizeOne [(lit ("season"), JVal.str (lit ("Season 7")))])
        (lit ("seasonNumber")) = some (JVal.num 7)
    ∧ dictGet (normalizeOne [(lit ("season"), JVal.str (lit ("Beta")))])
        (lit ("seasonNumber")) = some JVal.null
    ∧ dictGet (normalizeOne ([] : Obj)) (lit ("seasonNumber"))
        = some JVal.null := by
  refine ⟨?_, dictGet_normalizeOne d, by rfl, by rfl, by rfl⟩
  cases hv : dictGet d (lit ("season")) with
  | none => simp [seasonNumOf, getSeasonText, hv]
  | some w => cases w <;> simp [seasonNumOf, getSeasonText, hv]

/-- Claim C9 is corrected.  Counterexample to the claim as stated: on a
parsed object that already carries a seasonNumber key, normalization
overwrites that key, so the original key/value pair does not appear in
the result — the augmentation is not universally non-destructive. -/
theorem C9_augmentation_counterexample :
    ((lit ("seasonNumber"), JVal.num 99) ∈
      ([(lit ("season"), JVal.str (lit ("Beta"))),
        (lit ("seasonNumber"), JVal.num 99)] : Obj)) ∧
    ((lit ("seasonNumber"), JVal.num 99) ∉ normalizeOne
      [(lit ("season"), JVal.str (lit ("Beta"))),
       (lit ("seasonNumber"), JVal.num 99)]) := by
  constructor
  · simp
  · intro hmem
    rw [show normalizeOne
        [(lit ("season"), JVal.str (lit ("Beta"))),
         (lit ("seasonNumber"), JVal.num 99)]
      = [(lit ("season"), JVal.str (lit ("Beta"))),
         (lit ("seasonNumber"), JVal.null)] from rfl] at hmem
    rcases List.mem_cons.mp hmem with h | h
    · have := congrArg Prod.snd h
      simp at this
    · rcases List.mem_singleton.mp h with h2
      have := congrArg Prod.snd h2
      simp at this

theorem filter_map_set (v : JVal) : ∀ m : Obj,
    (m.map (fun p => if p.1 = lit ("seasonNumber")
        then (lit ("seasonNumber"), v) else p)).filter
      (fun p => !decide (p.1 = lit ("seasonNumber")))
    = m.filter (fun p => !decide (p.1 = lit ("seasonNumber"))) := by
  intro m
  induction m with
  | nil => rfl
  | cons p t ih =>
    obtain ⟨a, w⟩ := p
    by_cases hak : a = lit ("seasonNumber")
    · have hdec : decide (a = lit ("seasonNumber")) = true := by
        simpa using hak
      simp only [List.map_cons, List.filter_cons, if_pos hak, hdec,
        Bool.not_true, Bool.false_eq_true, if_false]
      exact ih
    · have hdec : decide (a = lit ("seasonNumber")) = false := by
        simpa using hak
      simp only [List.map_cons, if_neg hak, List.filter_cons, hdec,
        Bool.not_false, if_true]
      rw [ih]

/-- Claim C9 (amended): normalization preserves every key/value pair whose
key is not "seasonNumber", in order and unchanged; the seasonNumber key is
set to the derived value — appended at the end when the object had no such
key, and overwritten in place when it had one.  The only possible
destruction is of a pre-existing seasonNumber entry. -/
theorem C9_augmentation_amended (d : Obj) :
    ((normalizeOne d).filter (fun p => !decide (p.1 = lit ("seasonNumber")))
      = d.filter (fun p => !decide (p.1 = lit ("seasonNumber"))))
    ∧ dictGet (normalizeOne d) (lit ("seasonNumber"))
        = some (jvalOfSeasonNum (seasonNumOf d))
    ∧ (dictGet d (lit ("seasonNumber")) = none →
        normalizeOne d
          = d ++ [(lit ("seasonNumber"), jvalOfSeasonNum (seasonNumOf d))]) := by
  refine ⟨?_, dictGet_normalizeOne d, ?_⟩
  · rw [normalizeOne, dictSet]
    by_cases h : (dictGet d (lit ("seasonNumber"))).isSome
    · rw [if_pos h]
      exact filter_map_set _ d
    · rw [if_neg h]
      rw [List.filter_append, List.filter_cons]
      simp
  · intro hnone
    rw [normalizeOne, dictSet, if_neg (by rw [hnone]; simp)]

/-- Witness for the amended claim C9 on an object with no pre-existing
seasonNumber key: normalization is pure augmentation at the end. -/
theorem C9_augmentation_amended_witness :
    normalizeOne [(lit ("season"), JVal.str (lit ("Season 7")))]
      = [(lit ("season"), JVal.str (lit ("Season 7"))),
         (lit ("seasonNumber"), JVal.num 7)] := by
  have h := (C9_augmentation_amended
    [(lit ("season"), JVal.str (lit ("Season 7")))]).2.2 (by rfl)
  rw [h]
  rfl

theorem keyLe_refl (x : Bool × Nat) : keyLe x x = true := by
  rw [keyLe, if_pos rfl]
  simp

theorem keyLe_total (a b : Bool × Nat) : keyLe a b = true ∨ keyLe b a = true := by
  rw [keyLe, keyLe]
  by_cases h : a.1 = b.1
  · rw [if_pos h, if_pos h.symm]
    simp only [decide_eq_true_eq]
    omega
  · rw [if_neg h, if_neg (fun hh => h hh.symm)]
    simp only [decide_eq_true_eq]
    rcases ha : a.1 with - | - <;> rcases hb : b.1 with - | - <;> simp_all

theorem keyLe_trans (a b c : Bool × Nat) (h1 : keyLe a b = true)
    (h2 : keyLe b c = true) : keyLe a c = true := by
  obtain ⟨a1, a2⟩ := a
  obtain ⟨b1, b2⟩ := b
  obtain ⟨c1, c2⟩ := c
  rw [keyLe] at h1 h2 ⊢
  cases a1 <;> cases b1 <;> cases c1 <;> simp_all <;> omega

theorem mem_insertRec (a x : Obj) : ∀ l, x ∈ insertRec a l → x = a ∨ x ∈ l := by
  intro l
  induction l with
  | nil =>
    intro h
    rw [insertRec] at h
    simpa using h
  | cons b t ih =>
    intro h
    rw [insertRec] at h
    by_cases hle : recLe a b = true
    · rw [if_pos hle] at h
      rcases List.mem_cons.mp h with h1 | h1
      · exact Or.inl h1
      · exact Or.inr h1
    · rw [if_neg hle] at h
      rcases List.mem_cons.mp h with h1 | h1
      · exact Or.inr (by simp [h1])
      · rcases ih h1 with h2 | h2
        · exact Or.inl h2
        · exact Or.inr (List.mem_cons_of_mem b h2)

theorem sorted_insertRec (a : Obj) : ∀ l,
    List.Pairwise (fun x y => recLe x y = true) l →
    List.Pairwise (fun x y => recLe x y = true) (insertRec a l) := by
  intro l
  induction l with
  | nil => intro _; simp [insertRec]
  | cons b t ih =>
    intro hp
    obtain ⟨hb, ht⟩ := List.pairwise_cons.mp hp
    rw [insertRec]
    by_cases hle : recLe a b = true
    · rw [if_pos hle]
      refine List.pairwise_cons.mpr ⟨?_, hp⟩
      intro y hy
      rcases List.mem_cons.mp hy with rfl | hy2
      · exact hle
      · exact keyLe_trans _ _ _ hle (hb y hy2)
    · rw [if_neg hle]
      refine List.pairwise_cons.mpr ⟨?_, ih ht⟩
      intro y hy
      rcases mem_insertRec a y t hy with heq | hy2
      · subst heq
        rcases keyLe_total (sortKey y) (sortKey b) with h | h
        · exact absurd h hle
        · exact h
      · exact hb y hy2

theorem sorted_sortSeasons : ∀ l : List Obj,
    List.Pairwise (fun x y => recLe x y = true) (sortSeasons l) := by
  intro l
  induction l with
  | nil => simp [sortSeasons]
  | cons a t ih => exact sorted_insertRec a (sortSeasons t) ih

theorem filter_insertRec (k : Bool × Nat) (a : Obj) : ∀ l,
    (insertRec a l).filter (fun x => decide (sortKey x = k))
    = if sortKey a = k then
        a :: l.filter (fun x => decide (sortKey x = k))
      else l.filter (fun x => decide (sortKey x = k)) := by
  intro l
  induction l with
  | nil =>
    rw [insertRec]
    by_cases hk : sortKey a = k
    · rw [if_pos hk, List.filter_cons]
      simp [hk]
    · rw [if_neg hk, List.filter_cons]
      simp [hk]
  | cons b t ih =>
    rw [insertRec]
    by_cases hle : recLe a b = true
    · rw [if_pos hle, List.filter_cons]
      by_cases hk : sortKey a = k
      · have hd : decide (sortKey a = k) = true := by simpa using hk
        rw [hd, if_pos rfl, if_pos hk]
      · have hd : decide (sortKey a = k) = false := by simpa using hk
        rw [hd, if_neg hk]
        simp
    · rw [if_neg hle, List.filter_cons, List.filter_cons, ih]
      by_cases hk : sortKey a = k
      · have hbk : sortKey b ≠ k := by
          intro hbk
          apply hle
          rw [recLe, hbk, ← hk]
          exact keyLe_refl (sortKey a)
        have hd : decide (sortKey b = k) = false := by simpa using hbk
        simp [hd, hk]
      · simp [hk]

theorem filter_sortSeasons (k : Bool × Nat) : ∀ l : List Obj,
    (sortSeasons l).filter (fun x => decide (sortKey x = k))
      = l.filter (fun x => decide (sortKey x = k)) := by
  intro l
  induction l with
  | nil => rfl
  | cons a t ih =>
    rw [sortSeasons, filter_insertRec, List.filter_cons, ih]
    by_cases hk : sortKey a = k
    · have hd : decide (sortKey a = k) = true := by simpa using hk
      rw [if_pos hk, hd, if_pos rfl]
    · have hd : decide (sortKey a = k) = false := by simpa using hk
      rw [if_neg hk, hd]
      simp

theorem length_insertRec (a : Obj) : ∀ l,
    (insertRec a l).length = l.length + 1 := by
  intro l
  induction l with
  | nil => rfl
  | cons b t ih =>
    rw [insertRec]
    by_cases hle : recLe a b = true
    · rw [if_pos hle]
      simp
    · rw [if_neg hle]
      simp [ih]

theorem length_sortSeasons : ∀ l : List Obj,
    (sortSeasons l).length = l.length := by
  intro l
  induction l with
  | nil => rfl
  | cons a t ih =>
    rw [sortSeasons, length_insertRec, ih]
    rfl

theorem mkDatetime_bounds (y m d h mi s : Nat)
    (f : Nat × Nat × Nat × Nat × Nat × Nat)
    (hf : mkDatetime y m d h mi s = some f) : dtMinCode ≤ dtCode f := by
  rw [mkDatetime] at hf
  by_cases hc : 1 ≤ y ∧ 1 ≤ m ∧ m ≤ 12 ∧ 1 ≤ d ∧ d ≤ daysInMonth y m ∧ h ≤ 23
      ∧ mi ≤ 59 ∧ s ≤ 59
  · rw [if_pos hc] at hf
    obtain rfl : (y, m, d, h, mi, s) = f := Option.some.inj hf
    obtain ⟨h1, h2, -, h4, -⟩ := hc
    rw [dtCode, dtMinCode, dtCode]
    have hym : 1 * 13 + 1 ≤ y * 13 + m := by omega
    have hd2 : (1 * 13 + 1) * 32 + 1 ≤ (y * 13 + m) * 32 + d := by
      have := Nat.mul_le_mul_right 32 hym
      omega
    have hh : ((1 * 13 + 1) * 32 + 1) * 24 ≤ ((y * 13 + m) * 32 + d) * 24 + h := by
      have := Nat.mul_le_mul_right 24 hd2
      omega
    have hmi2 : (((1 * 13 + 1) * 32 + 1) * 24) * 60
        ≤ (((y * 13 + m) * 32 + d) * 24 + h) * 60 + mi := by
      have := Nat.mul_le_mul_right 60 hh
      omega
    have := Nat.mul_le_mul_right 61 hmi2
    omega
  · rw [if_neg hc] at hf
    exact absurd hf (by simp)

theorem pyStrptime_min (s : Str) (f : Nat × Nat × Nat × Nat × Nat × Nat)
    (h : pyStrptime s = some f) : dtMinCode ≤ dtCode f := by
  rw [pyStrptime] at h
  simp only [Option.bind_eq_some] at h
  obtain ⟨yr, -, r2, -, mr, -, r4, -, dr, -, r6, -, hr, -, r8, -, minr, -,
    r10, -, sr, -, hfin⟩ := h
  by_cases hend : sr.2.isEmpty
  · rw [if_pos hend] at hfin
    exact mkDatetime_bounds _ _ _ _ _ _ f hfin
  · rw [if_neg hend] at hfin
    exact absurd hfin (by simp)

theorem parse_dt_min (v : Option JVal) : dtMinCode ≤ parse_dt v := by
  rcases v with - | w
  · exact Nat.le_refl _
  · cases w with
    | str s =>
      rw [show parse_dt (some (JVal.str s))
        = if jFalsy (JVal.str s) then dtMinCode
          else match pyStrptime s with
            | some f => dtCode f
            | none => dtMinCode from rfl]
      split
      · exact Nat.le_refl _
      · cases hp : pyStrptime s with
        | none => exact Nat.le_refl _
        | some f => exact pyStrptime_min s f hp
    | null => exact Nat.le_refl _
    | bool b =>
      rw [show parse_dt (some (JVal.bool b))
        = if jFalsy (JVal.bool b) then dtMinCode else dtMinCode from rfl]
      split <;> exact Nat.le_refl _
    | num n =>
      rw [show parse_dt (some (JVal.num n))
        = if jFalsy (JVal.num n) then dtMinCode else dtMinCode from rfl]
      split <;> exact Nat.le_refl _
    | arr l =>
      rw [show parse_dt (some (JVal.arr l))
        = if jFalsy (JVal.arr l) then dtMinCode else dtMinCode from rfl]
      split <;> exact Nat.le_refl _
    | obj o =>
      rw [show parse_dt (some (JVal.obj o))
        = if jFalsy (JVal.obj o) then dtMinCode else dtMinCode from rfl]
      split <;> exact Nat.le_refl _

/- Modelled from the spec: the strict textual format YYYY-MM-DD HH:MM:SS
   that the specified sort-key rule refers to — two-digit month, day,
   hour, minute and second fields, four-digit year, single separators. -/
def specStrictFormat : Str → Bool
  | [y1, y2, y3, y4, s1, m1, m2, s2, d1, d2, sp, h1, h2, c1, i1, i2, c2,
     e1, e2] =>
    y1.isDigit && y2.isDigit && y3.isDigit && y4.isDigit && s1 = '-' &&
    m1.isDigit && m2.isDigit && s2 = '-' && d1.isDigit && d2.isDigit &&
    sp = ' ' && h1.isDigit && h2.isDigit && c1 = ':' && i1.isDigit &&
    i2.isDigit && c2 = ':' && e1.isDigit && e2.isDigit
  | _ => false

/- Modelled from the spec: the start-date sort code the claim describes —
   the parsed date for a strictly formatted string, the oldest possible
   value otherwise. -/
def specStartCode (r : Obj) : Nat :=
  match dictGet r (lit ("startDate")) with
  | some (JVal.str s) =>
    if specStrictFormat s then ((pyStrptime s).map dtCode).getD dtMinCode
    else dtMinCode
  | _ => dtMinCode

/-- Claim C2 is corrected.  Counterexample to the claim as stated: the
start date "2025-8-20 04:00:00" does not match the textual format
YYYY-MM-DD HH:MM:SS (single-digit month), so under the claim the record
carrying it sorts as if it had the oldest possible start date; but
strptime's lenient pattern accepts it, so the code gives the record a
2025 date and sorts it BEFORE a record whose (strictly formatted) start
date is 2020 — both records ended — instead of after it. -/
theorem C2_sort_counterexample :
    parse_seasons_objs
        [[(lit ("startDate"), JVal.str (lit ("2025-8-20 04:00:00"))),
          (lit ("endDate"), JVal.str (lit ("x")))],
         [(lit ("startDate"), JVal.str (lit ("2020-01-01 00:00:00"))),
          (lit ("endDate"), JVal.str (lit ("x")))]]
      = [normalizeOne
          [(lit ("startDate"), JVal.str (lit ("2025-8-20 04:00:00"))),
           (lit ("endDate"), JVal.str (lit ("x")))],
         normalizeOne
          [(lit ("startDate"), JVal.str (lit ("2020-01-01 00:00:00"))),
           (lit ("endDate"), JVal.str (lit ("x")))]]
    ∧ hasEnd (normalizeOne
        [(lit ("startDate"), JVal.str (lit ("2025-8-20 04:00:00"))),
         (lit ("endDate"), JVal.str (lit ("x")))])
      = hasEnd (normalizeOne
        [(lit ("startDate"), JVal.str (lit ("2020-01-01 00:00:00"))),
         (lit ("endDate"), JVal.str (lit ("x")))])
    ∧ specStartCode (normalizeOne
        [(lit ("startDate"), JVal.str (lit ("2025-8-20 04:00:00"))),
         (lit ("endDate"), JVal.str (lit ("x")))]) = dtMinCode
    ∧ ¬ (specStartCode (normalizeOne
        [(lit ("startDate"), JVal.str (lit ("2020-01-01 00:00:00"))),
         (lit ("endDate"), JVal.str (lit ("x")))])
        ≤ specStartCode (normalizeOne
        [(lit ("startDate"), JVal.str (lit ("2025-8-20 04:00:00"))),
         (lit ("endDate"), JVal.str (lit ("x")))])) := by
  exact ⟨by rfl, by rfl, by rfl, by decide⟩

/-- Claim C2 (amended): in the pipeline's sorted output every record with
no endDate precedes every record with an endDate; within records of equal
endDate-presence the parsed start dates are descending; a missing
startDate parses to the minimal datetime code; a string startDate parses
to its strptime value when the lenient %Y-%m-%d %H:%M:%S pattern (not the
strict textual format) accepts it and to the minimal code otherwise; and
the minimal code is a lower bound of every start key, so unparseable
records sort as if they had the oldest possible start date. -/
theorem C2_sort_amended (objs : List Obj) :
    List.Pairwise (fun a b =>
      (hasEnd a = true → hasEnd b = true)
      ∧ (hasEnd a = hasEnd b →
          parse_dt (dictGet b (lit ("startDate")))
            ≤ parse_dt (dictGet a (lit ("startDate")))))
      (parse_seasons_objs objs)
    ∧ parse_dt none = dtMinCode
    ∧ (∀ s : Str, parse_dt (some (JVal.str s))
        = ((pyStrptime s).map dtCode).getD dtMinCode)
    ∧ (∀ v : Option JVal, dtMinCode ≤ parse_dt v) := by
  refine ⟨?_, rfl, ?_, parse_dt_min⟩
  · rw [parse_seasons_objs]
    apply List.Pairwise.imp _ (sorted_sortSeasons (objs.map normalizeOne))
    intro a b h
    rw [recLe, keyLe] at h
    by_cases hb : (sortKey a).1 = (sortKey b).1
    · rw [if_pos hb] at h
      simp only [decide_eq_true_eq] at h
      have hb2 : hasEnd a = hasEnd b := hb
      refine ⟨fun ha => by rw [← hb2]; exact ha, fun _ => h⟩
    · rw [if_neg hb] at h
      simp only [decide_eq_true_eq] at h
      have h2 : hasEnd a = false := h
      constructor
      · intro ha
        rw [ha] at h2
        exact absurd h2 (by simp)
      · intro heq
        exact absurd (show (sortKey a).1 = (sortKey b).1 from heq) hb
  · intro s
    rw [show parse_dt (some (JVal.str s))
      = if jFalsy (JVal.str s) then dtMinCode
        else match pyStrptime s with
          | some f => dtCode f
          | none => dtMinCode from rfl]
    by_cases he : jFalsy (JVal.str s)
    · rw [if_pos he]
      have hs : s = [] := by
        have : s.isEmpty = true := he
        simpa using this
      subst hs
      rfl
    · rw [if_neg he]
      cases hp : pyStrptime s with
      | none => simp [hp]
      | some f => simp [hp]

/-- Witness for the amended claim C2: the minimal datetime code bounds a
concrete unparseable start value, through the theorem itself. -/
theorem C2_sort_amended_witness :
    dtMinCode ≤ parse_dt (some (JVal.str (lit ("not a date")))) :=
  (C2_sort_amended []).2.2.2 (some (JVal.str (lit ("not a date"))))

/-- Claim C10 (confirmed): the sort of parse_seasons is stable with
respect to extraction order — for every sort key, the subsequence of
records carrying that key is the same, in the same order, before and
after sorting, so two records with equal keys appear in the returned
sequence in the order in which they were extracted from the document. -/
theorem C10_sort_stable (objs : List Obj) (k : Bool × Nat) :
    (parse_seasons_objs objs).filter (fun x => decide (sortKey x = k))
      = (objs.map normalizeOne).filter (fun x => decide (sortKey x = k)) := by
  rw [parse_seasons_objs]
  exact filter_sortSeasons k (objs.map normalizeOne)

/- Python == between a JSON value (or a missing key, i.e. None) and an
   int: numbers compare by value, booleans compare as 0/1, everything
   else is unequal. -/
def pyEqInt (v : Option JVal) (n : Int) : Bool :=
  match v with
  | some (JVal.num m) => m = n
  | some (JVal.bool b) => (if b then (1 : Int) else 0) = n
  | _ => false

/- Python == between a JSON value (or None) and a string. -/
def pyEqStr (v : Option JVal) (t : Str) : Bool :=
  match v with
  | some (JVal.str u) => u = t
  | _ => false

/- The f-string label f"Season \x7bseason_no\x7d". -/
def seasonLabel (n : Int) : Str :=
  lit ("Season ") ++
    (if n < 0 then '-' :: Nat.toDigits 10 n.natAbs
     else Nat.toDigits 10 n.natAbs)

def numMatch (s : Obj) (n : Int) : Bool :=
  pyEqInt (dictGet s (lit ("seasonNumber"))) n

def strMatch (s : Obj) (n : Int) : Bool :=
  pyEqStr (dictGet s (lit ("season"))) (seasonLabel n)

/- The selection loop of leaderboard_by_season: for each record in order,
   first the numeric check, then the label check; the first hit is
   returned. -/
def findSeasonLoop (n : Int) : List Obj → Option Obj
  | [] => none
  | s :: rest =>
    if numMatch s n then some s
    else if strMatch s n then some s
    else findSeasonLoop n rest

/- The endpoint's answer given the sorted record sequence: 200 with the
   selected record, else the 404 HTTPException. -/
def bySeasonOn (l : List Obj) (n : Int) : Except Nat Obj :=
  (findSeasonLoop n l).elim (.error 404) .ok

/- Modelled from the spec: the prioritized selection the claim describes —
   the first record with seasonNumber == n anywhere in the sequence, and
   only if there is none, the first record whose season label
   string-matches. -/
def specSelect (l : List Obj) (n : Int) : Option Obj :=
  match l.find? (fun s => numMatch s n) with
  | some r => some r
  | none => l.find? (fun s => strMatch s n)

/- The three endpoints, parametric in the JSON decoder (json.loads is
   treated as a parameter f; a decoding failure is the JSONDecodeError
   branch).  Each ValueError from extraction and each decode failure is
   surfaced as HTTP 500; the upstream fetch is outside the model. -/
def leaderboard_all (f : Str → Option Obj) (raw : Str) :
    Except Nat (List Obj) :=
  ((cut_all_json_blocks raw).mapError (fun _ => 500)).bind (fun blocks =>
    (mapOpt f blocks).elim (.error 500)
      (fun objs => .ok (parse_seasons_objs objs)))

def leaderboard_latest (f : Str → Option Obj) (raw : Str) : Except Nat Obj :=
  ((cut_all_json_blocks raw).mapError (fun _ => 500)).bind (fun blocks =>
    (mapOpt f blocks).elim (.error 500) (fun objs =>
      ((parse_seasons_objs objs).head?).elim (.error 500) .ok))

def leaderboard_by_season (f : Str → Option Obj) (raw : Str) (n : Int) :
    Except Nat Obj :=
  ((cut_all_json_blocks raw).mapError (fun _ => 500)).bind (fun blocks =>
    (mapOpt f blocks).elim (.error 500) (fun objs =>
      bySeasonOn (parse_seasons_objs objs) n))

theorem findSeasonLoop_eq_find (n : Int) :
    ∀ l : List Obj,
      findSeasonLoop n l = l.find? (fun s => numMatch s n || strMatch s n) := by
  intro l
  induction l with
  | nil => rfl
  | cons s rest ih =>
    rw [findSeasonLoop]
    cases hn : numMatch s n with
    | true => simp [List.find?_cons, hn]
    | false =>
      cases hs : strMatch s n with
      | true => simp [List.find?_cons, hn, hs]
      | false => simp [List.find?_cons, hn, hs, ih]

theorem specSelect_cons_num (s : Obj) (rest : List Obj) (n : Int)
    (hn : numMatch s n = true) : specSelect (s :: rest) n = some s := by
  simp only [specSelect, List.find?_cons, hn]

theorem specSelect_cons_neg (s : Obj) (rest : List Obj) (n : Int)
    (hn : numMatch s n = false) (hs : strMatch s n = false) :
    specSelect (s :: rest) n = specSelect rest n := by
  simp only [specSelect, List.find?_cons, hn, hs]

theorem specSelect_agrees (n : Int) :
    ∀ l : List Obj, (∀ r ∈ l, strMatch r n = true → numMatch r n = true) →
      findSeasonLoop n l = specSelect l n := by
  intro l
  induction l with
  | nil => intro _; rfl
  | cons s rest ih =>
    intro hc
    rw [findSeasonLoop]
    cases hn : numMatch s n with
    | true =>
      rw [specSelect_cons_num s rest n hn]
      simp [hn]
    | false =>
      have hs : strMatch s n = false := by
        cases hs2 : strMatch s n with
        | false => rfl
        | true =>
          have := hc s (List.mem_cons_self s rest) hs2
          rw [this] at hn
          exact absurd hn (by simp)
      rw [specSelect_cons_neg s rest n hn hs]
      have hrest := ih (fun r hr => hc r (List.mem_cons_of_mem s hr))
      simp [hn, hs, hrest]

theorem findSeasonLoop_none (n : Int) (l : List Obj) :
    (findSeasonLoop n l = none ↔
      ∀ r ∈ l, numMatch r n = false ∧ strMatch r n = false) := by
  rw [findSeasonLoop_eq_find, List.find?_eq_none]
  constructor
  · intro h r hr
    have := h r hr
    simp only [Bool.or_eq_true, not_or, Bool.not_eq_true] at this
    exact this
  · intro h r hr
    obtain ⟨h1, h2⟩ := h r hr
    simp [h1, h2]

/-- Claim C3 as stated is refuted: the claim says the endpoint returns the
first record in the whole sorted sequence whose seasonNumber equals n, and
falls back to the label check only if no record numerically matches.  On
the two-record sequence below with n = 7, the second record numerically
matches (numMatch = true) while the first does not, yet the loop of
leaderboard_by_season returns the first record, because it applies the
label check to each record before moving on: the selection in the source
interleaves the two checks per record instead of prioritizing the numeric
check across the whole sequence (specSelect, modelled from the spec,
returns the numerically matching record instead). -/
theorem C3_selection_counterexample :
    findSeasonLoop 7
        [[(lit ("season"), JVal.str (lit ("Season 7")))],
         [(lit ("seasonNumber"), JVal.num 7)]]
      = some [(lit ("season"), JVal.str (lit ("Season 7")))]
    ∧ specSelect
        [[(lit ("season"), JVal.str (lit ("Season 7")))],
         [(lit ("seasonNumber"), JVal.num 7)]] 7
      = some [(lit ("seasonNumber"), JVal.num 7)]
    ∧ numMatch [(lit ("season"), JVal.str (lit ("Season 7")))] 7 = false
    ∧ numMatch [(lit ("seasonNumber"), JVal.num 7)] 7 = true
    ∧ strMatch [(lit ("season"), JVal.str (lit ("Season 7")))] 7 = true
    ∧ bySeasonOn
        [[(lit ("season"), JVal.str (lit ("Season 7")))],
         [(lit ("seasonNumber"), JVal.num 7)]] 7
      = .ok [(lit ("season"), JVal.str (lit ("Season 7")))] :=
  ⟨rfl, rfl, rfl, rfl, rfl, rfl⟩

/-- Claim C3 amended: for every record sequence and integer n, the
selection loop of leaderboard_by_season scans the records in order and
returns the first record that passes the numeric check seasonNumber == n
or, failing that on the same record, the label check
season == "Season \x7bn\x7d"; equivalently it is the first record matching
either check.  The claimed globally prioritized selection (specSelect)
coincides with the loop whenever every label-matching record also matches
numerically.  If no record passes either check the endpoint answer is the
404 NotFound error, and a returned record is exactly a loop hit. -/
theorem C3_selection_amended (l : List Obj) (n : Int) :
    findSeasonLoop n l = l.find? (fun s => numMatch s n || strMatch s n)
    ∧ ((∀ r ∈ l, strMatch r n = true → numMatch r n = true) →
        findSeasonLoop n l = specSelect l n)
    ∧ (bySeasonOn l n = .error 404 ↔
        ∀ r ∈ l, numMatch r n = false ∧ strMatch r n = false)
    ∧ (∀ r, findSeasonLoop n l = some r → bySeasonOn l n = .ok r) := by
  refine ⟨findSeasonLoop_eq_find n l, specSelect_agrees n l, ?_, ?_⟩
  · rw [bySeasonOn]
    cases h : findSeasonLoop n l with
    | none =>
      simp only [Option.elim_none]
      constructor
      · intro _
        exact (findSeasonLoop_none n l).mp h
      · intro _
        trivial
    | some r =>
      simp only [Option.elim_some]
      constructor
      · intro hok
        exact absurd hok (by simp)
      · intro hall
        rw [(findSeasonLoop_none n l).mpr hall] at h
        exact absurd h (by simp)
  · intro r h
    rw [bySeasonOn, h]
    rfl

/-- Witness for C3_selection_amended at a concrete one-record sequence:
the side condition holds, so the loop agrees with the prioritized
selection there. -/
theorem C3_selection_amended_witness :
    findSeasonLoop 7 [[(lit ("seasonNumber"), JVal.num 7)]]
      = specSelect [[(lit ("seasonNumber"), JVal.num 7)]] 7 :=
  (C3_selection_amended [[(lit ("seasonNumber"), JVal.num 7)]] 7).2.1
    (by decide)

theorem mapOpt_length {α β : Type} (f : α → Option β) :
    ∀ (l : List α) (r : List β), mapOpt f l = some r → r.length = l.length := by
  intro l
  induction l with
  | nil =>
    intro r h
    simp only [mapOpt, Option.some.injEq] at h
    subst h
    rfl
  | cons a t ih =>
    intro r h
    cases hfa : f a with
    | none => simp [mapOpt, hfa] at h
    | some b =>
      cases hmt : mapOpt f t with
      | none => simp [mapOpt, hfa, hmt] at h
      | some r2 =>
        simp only [mapOpt, hfa, hmt, Option.some.injEq] at h
        subst h
        simp [ih r2 hmt]

theorem cut_all_ok_ne_nil (raw : Str) (bs : List Str)
    (h : cut_all_json_blocks raw = .ok bs) : bs ≠ [] := by
  rw [cut_all_json_blocks] at h
  cases h1 : scanCut raw anchorPlain some 0 with
  | error e => rw [h1, except_bind_err] at h; exact absurd h (by simp)
  | ok b1 =>
    rw [h1, except_bind_ok] at h
    cases h2 : scanCut raw anchorEsc unescapeStr 0 with
    | error e => rw [h2, except_bind_err] at h; exact absurd h (by simp)
    | ok b2 =>
      rw [h2, except_bind_ok] at h
      cases he : (b1 ++ b2).isEmpty with
      | true => rw [if_pos he] at h; exact absurd h (by simp)
      | false =>
        rw [if_neg (by simp [he])] at h
        have hbs : b1 ++ b2 = bs := by
          simpa using h
        intro hnil
        rw [hnil] at hbs
        rw [hbs] at he
        simp at he

theorem except_mapError_ok {α ε ε2 : Type} (a : α) (g : ε → ε2) :
    (Except.ok a : Except ε α).mapError g = .ok a := rfl

/-- Claim C8: whenever extraction succeeds (hcut) and every block decodes
(hdec), the sorted sequence produced by the pipeline is provably never
empty — extraction returns at least one block, decoding and normalization
preserve the count — so the claim's "empty after a successful parse" case
cannot occur and its NotFound clause is vacuous; and /leaderboard/latest
returns exactly the first element of that sorted sequence (seasons[0]). -/
theorem C8_latest_head (f : Str → Option Obj) (raw : Str) (blocks : List Str)
    (objs : List Obj)
    (hcut : cut_all_json_blocks raw = .ok blocks)
    (hdec : mapOpt f blocks = some objs) :
    parse_seasons_objs objs ≠ []
    ∧ ∀ x rest, parse_seasons_objs objs = x :: rest →
        leaderboard_latest f raw = .ok x := by
  have hb := cut_all_ok_ne_nil raw blocks hcut
  have hlen : objs.length = blocks.length := mapOpt_length f blocks objs hdec
  constructor
  · have h1 : (parse_seasons_objs objs).length = blocks.length := by
      rw [show parse_seasons_objs objs = sortSeasons (objs.map normalizeOne)
            from rfl,
        length_sortSeasons, List.length_map, hlen]
    intro hnil
    rw [hnil] at h1
    exact hb (List.eq_nil_of_length_eq_zero (by simpa using h1.symm))
  · intro x rest hps
    rw [leaderboard_latest, hcut, except_mapError_ok, except_bind_ok, hdec,
      Option.elim_some, hps]
    rfl

/-- Witness for C8_latest_head: on a page holding the single block
\x7b"success":1\x7d, with a decoder sending every block to the empty
object, the latest-season endpoint answers 200 with the one normalized
record. -/
theorem C8_latest_head_witness :
    leaderboard_latest (fun _ => some []) (lit ("\x7b\"success\":1\x7d"))
      = .ok [(lit ("seasonNumber"), JVal.null)] :=
  (C8_latest_head (fun _ => some []) (lit ("\x7b\"success\":1\x7d"))
      [lit ("\x7b\"success\":1\x7d")] [[]] (by rfl) (by rfl)).2
    [(lit ("seasonNumber"), JVal.null)] [] (by rfl)

theorem scanCutF_not_noBlocks (raw sub : Str) (post : Str → Option Str) :
    ∀ fuel idx, scanCutF raw sub post fuel idx ≠ .error .noBlocks := by
  intro fuel
  induction fuel with
  | zero => intro idx h; simp [scanCutF] at h
  | succ f ih =>
    intro idx h
    rw [scanCutF] at h
    cases hfind : findFrom raw sub idx with
    | none => simp [hfind] at h
    | some i =>
      simp only [hfind, Option.elim_some] at h
      cases hcut : brace_cut raw i with
      | none =>
        simp only [hcut, Option.elim_none] at h
        simp at h
      | some cut =>
        simp only [hcut, Option.elim_some] at h
        cases hpost : post cut with
        | none =>
          simp only [hpost, Option.elim_none] at h
          simp at h
        | some blk =>
          simp only [hpost, Option.elim_some] at h
          cases hrest : scanCutF raw sub post f (i + 1) with
          | error e =>
            rw [hrest] at h
            simp only [Except.map] at h
            have he : e = PErr.noBlocks := by simpa using h
            exact ih (i + 1) (by rw [hrest, he])
          | ok rest =>
            rw [hrest] at h
            simp [Except.map] at h

theorem scanCutF_succ_ok_nil (raw sub : Str) (post : Str → Option Str)
    (f idx : Nat) (h : scanCutF raw sub post (f + 1) idx = .ok []) :
    findFrom raw sub idx = none := by
  rw [scanCutF] at h
  cases hfind : findFrom raw sub idx with
  | none => rfl
  | some i =>
    simp only [hfind, Option.elim_some] at h
    cases hcut : brace_cut raw i with
    | none => simp [hcut] at h
    | some cut =>
      simp only [hcut, Option.elim_some] at h
      cases hpost : post cut with
      | none => simp [hpost] at h
      | some blk =>
        simp only [hpost, Option.elim_some] at h
        cases hrest : scanCutF raw sub post f (i + 1) with
        | error e => rw [hrest] at h; simp [Except.map] at h
        | ok rest => rw [hrest] at h; simp [Except.map] at h

theorem scanCut_nil_of_find_none (raw sub : Str) (post : Str → Option Str)
    (idx : Nat) (h : findFrom raw sub idx = none) :
    scanCut raw sub post idx = .ok [] := by
  have h2 : scanCutF raw sub post ((raw.length + 1) + 1) idx = .ok [] := by
    rw [scanCutF, h]
    rfl
  exact h2

theorem findFrom_zero_none_iff (raw sub : Str) (hsub : sub ≠ []) :
    (findFrom raw sub 0 = none ↔
      ∀ i, sub.isPrefixOf (raw.drop i) = false) := by
  constructor
  · intro h i
    by_cases hle : i ≤ raw.length
    · exact findFrom_none raw sub 0 h i hle (Nat.zero_le i)
    · rw [List.drop_eq_nil_of_le (by omega)]
      cases sub with
      | nil => exact absurd rfl hsub
      | cons a t => rfl
  · intro h
    rw [findFrom, List.head?_eq_none_iff, List.filter_eq_nil_iff]
    intro a _
    simp [h a]

/-- Claim C6 (confirmed): the extraction step fails with the NoBlocksFound
ValueError exactly when the text contains no occurrence of the plain
anchor and none of the escaped anchor (both scans then find nothing, and
only then is the collected list empty — any occurrence either contributes
a block or raises one of the other ValueError forms first); the handler
surfaces that ValueError as HTTP 500 rather than an empty 200 response. -/
theorem C6_no_blocks (f : Str → Option Obj) (raw : Str) :
    (cut_all_json_blocks raw = .error PErr.noBlocks ↔
      ((∀ i, anchorPlain.isPrefixOf (raw.drop i) = false)
        ∧ (∀ i, anchorEsc.isPrefixOf (raw.drop i) = false)))
    ∧ (cut_all_json_blocks raw = .error PErr.noBlocks →
        leaderboard_all f raw = .error 500) := by
  constructor
  · constructor
    · intro h
      rw [cut_all_json_blocks] at h
      cases h1 : scanCut raw anchorPlain some 0 with
      | error e =>
        rw [h1, except_bind_err] at h
        have he : e = PErr.noBlocks := by simpa using h
        rw [he] at h1
        exact absurd h1
          (scanCutF_not_noBlocks raw anchorPlain some (raw.length + 2) 0)
      | ok b1 =>
        rw [h1, except_bind_ok] at h
        cases h2 : scanCut raw anchorEsc unescapeStr 0 with
        | error e =>
          rw [h2, except_bind_err] at h
          have he : e = PErr.noBlocks := by simpa using h
          rw [he] at h2
          exact absurd h2
            (scanCutF_not_noBlocks raw anchorEsc unescapeStr
              (raw.length + 2) 0)
        | ok b2 =>
          rw [h2, except_bind_ok] at h
          cases hem : (b1 ++ b2).isEmpty with
          | false =>
            rw [if_neg (by simp [hem])] at h
            exact absurd h (by simp)
          | true =>
            have hnil : b1 = [] ∧ b2 = [] := by
              simpa [List.append_eq_nil] using hem
            obtain ⟨hb1, hb2⟩ := hnil
            rw [hb1] at h1
            rw [hb2] at h2
            constructor
            · exact (findFrom_zero_none_iff raw anchorPlain (by decide)).mp
                (scanCutF_succ_ok_nil raw anchorPlain some (raw.length + 1)
                  0 h1)
            · exact (findFrom_zero_none_iff raw anchorEsc (by decide)).mp
                (scanCutF_succ_ok_nil raw anchorEsc unescapeStr
                  (raw.length + 1) 0 h2)
    · intro hpe
      obtain ⟨hp, he⟩ := hpe
      have f1 : findFrom raw anchorPlain 0 = none :=
        (findFrom_zero_none_iff raw anchorPlain (by decide)).mpr hp
      have f2 : findFrom raw anchorEsc 0 = none :=
        (findFrom_zero_none_iff raw anchorEsc (by decide)).mpr he
      rw [cut_all_json_blocks,
        scanCut_nil_of_find_none raw anchorPlain some 0 f1, except_bind_ok,
        scanCut_nil_of_find_none raw anchorEsc unescapeStr 0 f2,
        except_bind_ok]
      rfl
  · intro h
    rw [leaderboard_all, h]
    rfl

/-- Witness for C6_no_blocks: on anchor-free text the /leaderboard handler
answers HTTP 500. -/
theorem C6_no_blocks_witness :
    leaderboard_all (fun _ => some []) (lit ("hello")) = .error 500 :=
  (C6_no_blocks (fun _ => some []) (lit ("hello"))).2 (by rfl)
